import Mathlib

/-!
Verification of the GridSearchSampling exhaustive search engine (src/main.cpp).

The program enumerates a discretized float coordinate space by reinterpreting
float bit patterns as uint32 values, partitions the outer dimension across
worker threads, keeps the K lowest-scoring candidates per worker in a fixed
array (`PerThreadData::ProcessResult`), and merges the per-worker arrays into
one final array.

Modelling conventions used throughout this file:
* A float in [0, 1] is represented by its IEEE-754 binary32 bit pattern, a
  natural number in [0, 0x3F800000]; `F32.val` gives the exact rational value
  of such a pattern.  Reinterpreting a float as uint32 (the source's
  `*reinterpret_cast<uint32_t*>`) is then the identity on the pattern.
* uint32 arithmetic is `Nat` arithmetic taken modulo 2^32 where the source can
  overflow.
* Scores are exact rationals; the tracker code only compares and stores
  scores, never computes with them, so this is faithful to the float
  comparisons in the source.  `FLT_MAX` is the exact rational value of the
  largest finite binary32 float.
* The `while (true)` enumeration loop is modelled with an explicit fuel
  argument; theorems either hold for every fuel or are stated with fuel that
  provably suffices.
* Single-precision arithmetic in the partition computation
  (`float(s_end) * float(i) / float(numThreads)`) is modelled exactly by
  `roundQ`, round-to-nearest-even on rationals, valid on {0} and [1, 2^127)
  which covers every value that computation produces.
* Coordinate tuples are lists of bit patterns listed innermost dimension
  first, i.e. the reverse of the C++ index order: the head is input[D-1],
  the last element is input[0] (the partitioned outer dimension).
-/

/-- Bit pattern of 1.0f, the source's `Optimizer_Base::s_end`
(0x3F800000 = 1065353216 = 127 * 2^23). -/
def sEnd : Nat := 1065353216

/-- Modulus of uint32 arithmetic. -/
def u32 : Nat := 4294967296

/-- Exact rational value of FLT_MAX, the largest finite binary32 float,
used as the sentinel score. -/
def fltMax : ℚ := (2 ^ 24 - 1) * 2 ^ 104

/-- The source's `AdvanceFloat` on bit patterns: add `stepCount` to the
pattern in uint32 arithmetic, record whether the (wrapped) sum stayed below
`maxu`, then reduce modulo `maxu`.  Returns the new pattern and that flag. -/
def advanceFloat (u stepCount maxu : Nat) : Nat × Bool :=
  let u' := (u + stepCount) % u32
  (u' % maxu, decide (u' < maxu))

/-- One advance of the multi-dimensional counter in `IterateInput`: the loop
`for i = D-1 down to 0` tries `AdvanceFloat` on each dimension starting with
the innermost; a dimension that wraps keeps its wrapped value and the carry
moves outward; the first dimension that advances without wrapping stops the
scan.  `vals` and `bounds` list the dimensions innermost first; `none` means
every dimension wrapped (the loop exits). -/
def stepDims (step : Nat) : List Nat → List Nat → Option (List Nat)
  | [], _ => none
  | _ :: _, [] => none
  | v :: rest, b :: brest =>
    let a := advanceFloat v step b
    if a.2 then some (a.1 :: rest)
    else
      match stepDims step rest brest with
      | some rest' => some (a.1 :: rest')
      | none => none

/-- The list of coordinate tuples visited by `IterateInput`'s loop from a
given start state: the current state is processed, then the counter advances;
the loop ends when every dimension wraps.  `fuel` bounds the number of
iterations; every theorem below either holds for all fuel or supplies fuel
that provably suffices. -/
def visitD (step : Nat) (bounds : List Nat) : Nat → List Nat → List (List Nat)
  | 0, _ => []
  | fuel + 1, vals =>
    vals ::
      (match stepDims step vals bounds with
       | some vals' => visitD step bounds fuel vals'
       | none => [])

/-- Start state of `IterateInput`: `input[0] = min`, all other dimensions 0
(innermost first, so the partitioned dimension is the last element). -/
def iterStart (D minu : Nat) : List Nat :=
  List.replicate (D - 1) 0 ++ [minu]

/-- Per-dimension bounds of `IterateInput`: the partitioned dimension `i = 0`
is bounded by `max`, every inner dimension by `1.0f` (pattern `sEnd`). -/
def iterBounds (D maxu : Nat) : List Nat :=
  List.replicate (D - 1) sEnd ++ [maxu]

/-- The full visit list of one `IterateInput` call over the slice
`[minu, maxu)` of the outer dimension. -/
def iterateInput (D step minu maxu fuel : Nat) : List (List Nat) :=
  visitD step (iterBounds D maxu) fuel (iterStart D minu)

/-- A candidate: a coordinate tuple together with its score
(`PerThreadData::Result`). -/
abbrev Cand := List Nat × ℚ

/-- A freshly constructed result slot: score `FLT_MAX`, coordinate not yet
written (modelled as the empty tuple). -/
def padC : Cand := ([], fltMax)

/-- A freshly constructed `PerThreadData`: `K` sentinel slots. -/
def initState (K : Nat) : List Cand :=
  List.replicate K padC

/-- The scan `for (i = 1; i < K; ++i) if (results[i].score > largestScore)`
inside `ProcessResult`: returns the index of the first slot attaining the
maximum score, where `bi`/`bs` are the best index and score so far and `i`
is the index of the head of `rest`. -/
def firstMaxAux (bi : Nat) (bs : ℚ) (i : Nat) : List Cand → Nat
  | [] => bi
  | c :: rest =>
    if c.2 > bs then firstMaxAux i c.2 (i + 1) rest
    else firstMaxAux bi bs (i + 1) rest

/-- The three-assignment swap of slots 0 and `j` at the end of
`ProcessResult`. -/
def swapAt0 (l : List Cand) (j : Nat) : List Cand :=
  (l.set 0 (l.getD j padC)).set j (l.getD 0 padC)

/-- The source's `PerThreadData::ProcessResult`: slot 0 always carries the
worst (highest) held score; a new candidate is kept only if its score is
strictly below that, in which case it overwrites slot 0 and the new worst
slot is found and swapped back to the front.  `K == 1` is special-cased at
compile time in the source. -/
def processResult (st : List Cand) (input : List Nat) (score : ℚ) : List Cand :=
  match st with
  | [] => []
  | r0 :: rest =>
    if st.length = 1 then
      if score < r0.2 then [(input, score)] else st
    else
      if r0.2 > score then
        let st' := (input, score) :: rest
        let j := firstMaxAux 0 score 1 rest
        if j > 0 then swapAt0 st' j else st'
      else st

/-- Feeding a list of candidates through `ProcessResult` from a given state. -/
def foldPR (st : List Cand) (l : List Cand) : List Cand :=
  l.foldl (fun s c => processResult s c.1 c.2) st

/-- A whole tracker run: a fresh `PerThreadData` fed a stream of
candidates. -/
def runT (K : Nat) (l : List Cand) : List Cand :=
  foldPR (initState K) l

/-- Fuel-bounded floor of the base-2 logarithm, used to find the binary32
exponent of a rational. -/
def lg2go : Nat → Nat → Nat
  | 0, _ => 0
  | fuel + 1, n => if n < 2 then 0 else lg2go fuel (n / 2) + 1

/-- Floor of the base-2 logarithm of a natural number (exact for n < 2^128). -/
def lg2 (n : Nat) : Nat := lg2go 128 n

/-- Round half to even on rationals: the integer nearest to `x`, ties going
to the even integer. -/
def rhe (x : ℚ) : ℤ :=
  let f := ⌊x⌋
  let r := x - f
  if r < 1 / 2 then f
  else if 1 / 2 < r then f + 1
  else if 2 ∣ f then f else f + 1

/-- Binary32 exponent of a rational q ≥ 1: the e with 2^e ≤ q < 2^(e+1). -/
def floorLog2 (q : ℚ) : Nat := lg2 (⌊q⌋.toNat)

/-- Exact model of rounding a rational to the nearest binary32 float
(round-to-nearest, ties to even).  Exact for 0 and for magnitudes in
[1, 2^127); the partition computation in `Optimize` only ever rounds such
values.  Values below 1 other than 0 do not occur there and are returned
unchanged. -/
def roundQ (q : ℚ) : ℚ :=
  if q < 1 then q
  else
    let e := floorLog2 q
    ((rhe (q * 2 ^ 23 / 2 ^ e) : ℚ) * 2 ^ e) / 2 ^ 23

/-- The partition boundary computed in `Optimize`:
`uint32_t(float(s_end) * float(i) / float(numThreads))`, with every operation
in single precision and the final conversion truncating toward zero. -/
def partitionBound (N i : Nat) : Nat :=
  (⌊roundQ (roundQ (roundQ (sEnd : ℚ) * roundQ (i : ℚ)) / roundQ (N : ℚ))⌋).toNat

/-- The candidate stream of worker `i` of `Optimize`: its slice of the outer
dimension enumerated by `IterateInput`, each coordinate paired with its
score. -/
def workerCands (D step N fuel : Nat) (score : List Nat → ℚ) (i : Nat) : List Cand :=
  (iterateInput D step (partitionBound N i) (partitionBound N (i + 1)) fuel).map
    (fun v => (v, score v))

/-- The source's `Optimize` driver up to (and not including) the final sort
and CSV output: run every worker over its partition, then feed each worker's
result slots, in worker order and slot order, through a fresh tracker.
The final `std::sort` does not change the held multiset, and the claims
below compare result sets, so it is not modelled. -/
def optimizeRun (D step K N fuel : Nat) (score : List Nat → ℚ) : List Cand :=
  ((List.range N).map (fun i => runT K (workerCands D step N fuel score i))).foldl
    (fun acc held => foldPR acc held) (initState K)

/-- Numerator of the exact value of the binary32 bit pattern `u` (for
patterns up to `sEnd` these are the non-negative floats ≤ 1): subnormals
(exponent field 0) have value `mantissa * 2^-149`, normals
`(2^23 + mantissa) * 2^(e - 150)`; `valN u` is that value times 2^149. -/
def valN (u : Nat) : Nat :=
  if u < 2 ^ 23 then u
  else (u % 2 ^ 23 + 2 ^ 23) * 2 ^ (u / 2 ^ 23 - 1)

/-- A float in [0, 1]: a binary32 bit pattern between 0 (0.0f) and `sEnd`
(1.0f).  All patterns in this range denote finite non-negative values. -/
structure F32 where
  bits : Nat
  le_sEnd : bits ≤ sEnd

/-- Exact rational value of a float in [0, 1]. -/
def F32.val (f : F32) : ℚ := (valN f.bits : ℚ) / 2 ^ 149

/-- The source's encode direction: reinterpreting the float's representation
as uint32 reads off the bit pattern. -/
def encodeF (f : F32) : Nat := f.bits

/-- The source's decode direction: reinterpreting a uint32 in
[0, `sEnd`] as a float yields the float with that bit pattern. -/
def decodeF (u : Nat) (h : u ≤ sEnd) : F32 := ⟨u, h⟩

/-- The multiset of scores held in a tracker state (or carried by a stream
of candidates). -/
def scoresOf (l : List Cand) : Multiset ℚ := (l.map (fun c => c.2) : List ℚ)

/-- The invariant of `ProcessResult` for K > 1: slot 0 carries the worst
(maximum) score among the held slots. -/
def headWorst (st : List Cand) : Prop :=
  ∀ c ∈ st, c.2 ≤ (st.headD padC).2

/-- `H` is a K-element sub-multiset of `M` every element of which is less
than or equal to every element of the rest of `M`: the multiset of the K
lowest scores of `M`.  Such an `H` is unique (`isBottomK_unique`). -/
def IsBottomK (K : Nat) (H M : Multiset ℚ) : Prop :=
  H ≤ M ∧ Multiset.card H = K ∧ ∀ a ∈ H, ∀ b ∈ M - H, a ≤ b

/-- No score that has fewer than `K` strictly smaller scores in the stream
occurs twice: the K+1 lowest scores (counting multiplicity) are pairwise
distinct.  This is the tie hypothesis under which Top-K results are
reproducible. -/
def lowDistinct (K : Nat) (l : List Cand) : Prop :=
  ∀ s : ℚ, Multiset.countP (fun a => a < s) (scoresOf l) < K →
    Multiset.count s (scoresOf l) ≤ 1

/-- The state of the step-1 odometer after `r` advances, when the outer
dimension starts at `a`: inner dimensions are the base-`sEnd` digits of `r`,
the outer dimension moves one step per completed inner sweep.  Listed
innermost first, like `visitD` states. -/
def stateOfRank (a D r : Nat) : List Nat :=
  (List.range (D - 1)).map (fun j => r / sEnd ^ j % sEnd) ++ [a + r / sEnd ^ (D - 1)]

/-- Score function used to witness that different partitions sample
different lattice points: the negated coordinate, injective on
one-dimensional coordinates. -/
def scoreNeg (v : List Nat) : ℚ := -((v.headD 0 : Nat) : ℚ)

/-- The inner-dimension digits of the step-1 odometer at rank `r`: the first
`m` base-`sEnd` digits of `r`, least significant (= innermost dimension)
first. -/
def digs (m r : Nat) : List Nat :=
  (List.range m).map (fun j => r / sEnd ^ j % sEnd)

/-! ### Basic facts about the value function and the encode/decode pair (C2) -/

theorem valN_lt_succ (u : Nat) : valN u < valN (u + 1) := by
  by_cases h1 : u + 1 < 2 ^ 23
  · have h0 : u < 2 ^ 23 := by omega
    simp only [valN, if_pos h0, if_pos h1]
    omega
  · by_cases h0 : u < 2 ^ 23
    · have hu : u = 2 ^ 23 - 1 := by omega
      subst hu
      norm_num [valN]
    · have hrep : 2 ^ 23 * (u / 2 ^ 23) + u % 2 ^ 23 = u := Nat.div_add_mod u (2 ^ 23)
      have hmlt : u % 2 ^ 23 < 2 ^ 23 := Nat.mod_lt _ (by norm_num)
      have he1 : 1 ≤ u / 2 ^ 23 := by
        rw [Nat.one_le_div_iff (by norm_num)]
        omega
      simp only [valN, if_neg h0, if_neg h1]
      by_cases hc : u % 2 ^ 23 + 1 < 2 ^ 23
      · have hdiv : (u + 1) / 2 ^ 23 = u / 2 ^ 23 := by
          conv_lhs => rw [← hrep]
          rw [show 2 ^ 23 * (u / 2 ^ 23) + u % 2 ^ 23 + 1
                = 2 ^ 23 * (u / 2 ^ 23) + (u % 2 ^ 23 + 1) by ring,
            Nat.mul_add_div (by norm_num), Nat.div_eq_of_lt hc]
          omega
        have hmod : (u + 1) % 2 ^ 23 = u % 2 ^ 23 + 1 := by
          conv_lhs => rw [← hrep]
          rw [show 2 ^ 23 * (u / 2 ^ 23) + u % 2 ^ 23 + 1
                = 2 ^ 23 * (u / 2 ^ 23) + (u % 2 ^ 23 + 1) by ring,
            Nat.mul_add_mod, Nat.mod_eq_of_lt hc]
        rw [hdiv, hmod]
        exact (Nat.mul_lt_mul_right (pow_pos (by norm_num) _)).mpr (by omega)
      · have hm23 : u % 2 ^ 23 = 2 ^ 23 - 1 := by omega
        have hu1 : u + 1 = 2 ^ 23 * (u / 2 ^ 23 + 1) := by omega
        have hdiv : (u + 1) / 2 ^ 23 = u / 2 ^ 23 + 1 := by
          rw [hu1, Nat.mul_div_cancel_left _ (show 0 < 2 ^ 23 by norm_num)]
        have hmod : (u + 1) % 2 ^ 23 = 0 := by
          rw [hu1, Nat.mul_mod_right]
        have hee : u / 2 ^ 23 + 1 - 1 = (u / 2 ^ 23 - 1) + 1 := by omega
        rw [hdiv, hmod, hm23, hee, pow_succ]
        have hp : 0 < 2 ^ (u / 2 ^ 23 - 1) := pow_pos (by norm_num) _
        have hgoal : ∀ p : Nat, 0 < p →
            (2 ^ 23 - 1 + 2 ^ 23) * p < (0 + 2 ^ 23) * (p * 2) := by
          intro p hpp
          norm_num
          omega
        exact hgoal _ hp

theorem valN_strictMono : StrictMono valN :=
  strictMono_nat_of_lt_succ valN_lt_succ

theorem F32_val_lt_iff (a b : F32) : a.val < b.val ↔ a.bits < b.bits := by
  unfold F32.val
  rw [div_lt_div_iff_of_pos_right (show (0 : ℚ) < 2 ^ 149 by positivity), Nat.cast_lt]
  exact valN_strictMono.lt_iff_lt

/-- C2: encode (bit-pattern reinterpretation) and decode (the reverse) are
mutual inverses on floats in [0, 1], and encode is strictly order
preserving there: a < b (as float values) iff encode a < encode b. -/
theorem c2_encode_decode_order :
    (∀ (u : Nat) (h : u ≤ sEnd), encodeF (decodeF u h) = u) ∧
    (∀ f : F32, decodeF (encodeF f) f.le_sEnd = f) ∧
    (∀ a b : F32, a.val < b.val ↔ encodeF a < encodeF b) := by
  refine ⟨fun u h => rfl, fun f => rfl, fun a b => ?_⟩
  exact F32_val_lt_iff a b

theorem c2_encode_decode_order_witness :
    encodeF (decodeF 5 (by norm_num [sEnd])) = 5 ∧
    ((decodeF 3 (by norm_num [sEnd])).val < (decodeF 7 (by norm_num [sEnd])).val ↔
      encodeF (decodeF 3 (by norm_num [sEnd])) < encodeF (decodeF 7 (by norm_num [sEnd]))) :=
  ⟨c2_encode_decode_order.1 5 (by norm_num [sEnd]),
   c2_encode_decode_order.2.2 _ _⟩

/-! ### AdvanceFloat (C6) -/

/-- C6 fails as stated: for value 1.0f, stepCount 4294967295 and bound 1.0f
the uint32 sum wraps at 2^32 before the comparison and the reduction modulo
`encode(bound)`, so `AdvanceFloat` returns true although the unwrapped sum
1065353216 + 4294967295 is not below `encode(1.0f)`, and the stored pattern
differs from `(encode(value) + stepCount) % encode(bound)`. -/
theorem c6_counterexample :
    advanceFloat sEnd 4294967295 sEnd = (1065353215, true) ∧
    ¬(sEnd + 4294967295 < sEnd) ∧
    (1065353215 : Nat) ≠ (sEnd + 4294967295) % sEnd := by
  refine ⟨?_, by decide, by decide⟩
  decide

/-- C6 amended: as long as `encode(value) + stepCount` does not overflow the
uint32 range (otherwise the sum wraps modulo 2^32 first), `AdvanceFloat`
stores `decode((encode(value) + stepCount) % encode(bound))` and returns
true exactly when the unwrapped sum is strictly below `encode(bound)`. -/
theorem c6_amended (u s m : Nat) (hu : u ≤ sEnd) (hm1 : 1 ≤ m) (hm : m ≤ sEnd)
    (hs : u + s < u32) :
    advanceFloat u s m = ((u + s) % m, decide (u + s < m)) := by
  unfold advanceFloat
  rw [Nat.mod_eq_of_lt hs]

theorem c6_amended_witness :
    advanceFloat 0 3 sEnd = ((0 + 3) % sEnd, decide (0 + 3 < sEnd)) :=
  c6_amended 0 3 sEnd (by decide) (by decide) (by decide) (by decide)

/-! ### Carry behaviour of the odometer (C7) -/

/-- C7 fails as stated: with step size 3 (which does not divide
`encode(1.0f)` = 127 * 2^23) the innermost dimension, overflowing from its
last reachable multiple of 3, restarts at pattern 1 rather than at
`domain_min` (pattern 0), while the carry advances the next dimension by one
step. -/
theorem c7_counterexample :
    stepDims 3 [1065353214, 0] [sEnd, sEnd] = some [1, 3] ∧ (1 : Nat) ≠ 0 := by
  refine ⟨by decide, by decide⟩

theorem advanceFloat_inner_wrap (step v : Nat) (hstep : 1 ≤ step) (hdvd : step ∣ sEnd)
    (hv : v < sEnd) (hvm : step ∣ v) (hover : ¬v + step < sEnd) :
    advanceFloat v step sEnd = (0, false) := by
  have hsle : step ≤ sEnd := Nat.le_of_dvd (by norm_num [sEnd]) hdvd
  have hlt : v + step < u32 := by
    have h1 : sEnd + sEnd < u32 := by norm_num [sEnd, u32]
    omega
  have hmod32 : (v + step) % u32 = v + step := Nat.mod_eq_of_lt hlt
  have h3 : sEnd ≤ v + step := by omega
  have hsub : (v + step) % sEnd = v + step - sEnd := by
    rw [Nat.mod_eq_sub_mod h3]
    exact Nat.mod_eq_of_lt (by omega)
  have hdd : step ∣ v + step - sEnd := Nat.dvd_sub' (Nat.dvd_add hvm dvd_rfl) hdvd
  have hz : v + step - sEnd = 0 := Nat.eq_zero_of_dvd_of_lt hdd (by omega)
  simp only [advanceFloat, hmod32, hsub, hz]
  simp [hover]

theorem stepDims_inner_carry (step v : Nat) (rest bounds : List Nat)
    (hstep : 1 ≤ step) (hdvd : step ∣ sEnd) (hv : v < sEnd) (hvm : step ∣ v)
    (hover : ¬v + step < sEnd) :
    stepDims step (v :: rest) (sEnd :: bounds) =
      Option.map (fun r => 0 :: r) (stepDims step rest bounds) := by
  rw [stepDims, advanceFloat_inner_wrap step v hstep hdvd hv hvm hover]
  cases stepDims step rest bounds <;> rfl

theorem stepDims_inner_multiples (step : Nat) (hstep : 1 ≤ step) (hdvd : step ∣ sEnd) :
    ∀ (ivals : List Nat) (outer bout : Nat) (vals' : List Nat),
      (∀ v ∈ ivals, step ∣ v ∧ v < sEnd) →
      stepDims step (ivals ++ [outer]) (List.replicate ivals.length sEnd ++ [bout])
        = some vals' →
      ∃ ivals' outer', vals' = ivals' ++ [outer'] ∧ ∀ v ∈ ivals', step ∣ v ∧ v < sEnd := by
  intro ivals
  induction ivals with
  | nil =>
    intro outer bout vals' _ hstepEq
    simp only [List.nil_append, List.length_nil, List.replicate_zero, stepDims] at hstepEq
    rcases hvb : (advanceFloat outer step bout).2 with _ | _
    · rw [hvb] at hstepEq
      simp at hstepEq
    · rw [hvb] at hstepEq
      simp only [if_pos rfl] at hstepEq
      refine ⟨[], (advanceFloat outer step bout).1, ?_, by simp⟩
      simp_all
  | cons v ivals ih =>
    intro outer bout vals' hinv hstepEq
    have hv : step ∣ v ∧ v < sEnd := hinv v (by simp)
    obtain ⟨hvd, hvlt⟩ := hv
    have hrest : ∀ w ∈ ivals, step ∣ w ∧ w < sEnd := fun w hw => hinv w (by simp [hw])
    have hsle : step ≤ sEnd := Nat.le_of_dvd (by norm_num [sEnd]) hdvd
    have hlt32 : v + step < u32 := by
      have h1 : sEnd + sEnd < u32 := by norm_num [sEnd, u32]
      omega
    have hmod32 : (v + step) % u32 = v + step := Nat.mod_eq_of_lt hlt32
    have hnew : step ∣ (advanceFloat v step sEnd).1 ∧ (advanceFloat v step sEnd).1 < sEnd := by
      simp only [advanceFloat, hmod32]
      exact ⟨(Nat.dvd_mod_iff hdvd).mpr (Nat.dvd_add hvd dvd_rfl),
        Nat.mod_lt _ (by norm_num [sEnd])⟩
    simp only [List.cons_append, List.length_cons, List.replicate_succ,
      List.cons_append, stepDims, List.append_eq] at hstepEq
    rcases hvb : (advanceFloat v step sEnd).2 with _ | _
    · rw [hvb] at hstepEq
      simp only [Bool.false_eq_true, if_false] at hstepEq
      rcases hrec : stepDims step (ivals ++ [outer])
          (List.replicate ivals.length sEnd ++ [bout]) with _ | rest'
      · rw [hrec] at hstepEq
        simp at hstepEq
      · rw [hrec] at hstepEq
        simp only [Option.some.injEq] at hstepEq
        obtain ⟨ivals', outer', hshape, hinv'⟩ := ih outer bout rest' hrest hrec
        refine ⟨(advanceFloat v step sEnd).1 :: ivals', outer', ?_, ?_⟩
        · rw [← hstepEq, hshape]
          rfl
        · intro w hw
          rcases List.mem_cons.mp hw with h | h
          · subst h; exact hnew
          · exact hinv' w h
    · rw [hvb] at hstepEq
      simp only [if_true, Option.some.injEq] at hstepEq
      refine ⟨(advanceFloat v step sEnd).1 :: ivals, outer, ?_, ?_⟩
      · rw [← hstepEq]
        rfl
      · intro w hw
        rcases List.mem_cons.mp hw with h | h
        · subst h; exact hnew
        · exact hrest w h

/-- C7 amended: when an inner dimension overflows, it restarts at
`(old + step) mod encode(1.0f)` and the carry advances the next-slower
dimension by one step.  The restart is at pattern 0 — and inner dimensions
range over exactly the multiples of the step size — whenever the step size
divides `encode(1.0f)` = 127 * 2^23, which holds for every step size the
program instantiates (1, 2^14, 2^18); for other step sizes the restart
pattern is the nonzero remainder (see the counterexample). -/
theorem c7_amended :
    (∀ (step v : Nat) (rest bounds : List Nat), 1 ≤ step → step ∣ sEnd →
      v < sEnd → step ∣ v → ¬v + step < sEnd →
      stepDims step (v :: rest) (sEnd :: bounds) =
        Option.map (fun r => 0 :: r) (stepDims step rest bounds)) ∧
    (∀ (step : Nat), 1 ≤ step → step ∣ sEnd →
      ∀ (ivals : List Nat) (outer bout : Nat) (vals' : List Nat),
        (∀ v ∈ ivals, step ∣ v ∧ v < sEnd) →
        stepDims step (ivals ++ [outer]) (List.replicate ivals.length sEnd ++ [bout])
          = some vals' →
        ∃ ivals' outer', vals' = ivals' ++ [outer'] ∧ ∀ v ∈ ivals', step ∣ v ∧ v < sEnd) :=
  ⟨fun step v rest bounds h1 h2 h3 h4 h5 =>
      stepDims_inner_carry step v rest bounds h1 h2 h3 h4 h5,
   fun step h1 h2 => stepDims_inner_multiples step h1 h2⟩

theorem c7_amended_witness :
    stepDims 16384 [1065336832, 0] [sEnd, sEnd] =
      Option.map (fun r => 0 :: r) (stepDims 16384 [0] [sEnd]) :=
  c7_amended.1 16384 1065336832 [0] [sEnd] (by decide) (by decide) (by decide)
    (by decide) (by decide)

/-! ### No configuration validation (C9) -/

/-- C9 fails as stated: the code performs no configuration validation at
all.  With step size 0 the scan phase runs anyway — here it visits the
start coordinate three times in its first three iterations — rather than
aborting with a configuration error before scanning. -/
theorem c9_counterexample :
    iterateInput 1 0 0 sEnd 3 = [[0], [0], [0]] := by decide

/-- C9 amended: the code has no ConfigurationError and performs no
validation of step size, K or D.  A step size of 0 makes the enumeration
loop revisit the start coordinate forever (for every iteration budget the
visit list is that coordinate repeated), so the scan phase starts and never
terminates; K = 0 and D = 0 index past the end of zero-length arrays, which
the C++ leaves undefined. -/
theorem c9_amended (fuel u : Nat) (hu : u < sEnd) :
    visitD 0 [sEnd] fuel [u] = List.replicate fuel [u] := by
  induction fuel with
  | zero => rfl
  | succ n ih =>
    have hstep : stepDims 0 [u] [sEnd] = some [u] := by
      have hlt32 : u < u32 := by
        have h1 : sEnd < u32 := by norm_num [sEnd, u32]
        omega
      have h32 : (u + 0) % u32 = u := by
        rw [Nat.add_zero]
        exact Nat.mod_eq_of_lt hlt32
      have hse : u % sEnd = u := Nat.mod_eq_of_lt hu
      simp only [stepDims, advanceFloat, h32, hse]
      simp [hu]
    rw [List.replicate_succ, ← ih]
    simp only [visitD, hstep]

theorem c9_amended_witness : visitD 0 [sEnd] 2 [5] = List.replicate 2 [5] :=
  c9_amended 2 5 (by norm_num [sEnd])

/-! ### One-dimensional enumeration completeness (C8) -/

theorem visit1D_char (S : Nat) (hS1 : 1 ≤ S) (hS2 : S < u32) :
    ∀ fuel k, (sEnd - k * S + S - 1) / S ≤ fuel → k * S < sEnd →
      visitD S [sEnd] fuel [k * S] =
        (List.range ((sEnd - k * S + S - 1) / S)).map (fun j => [(k + j) * S]) := by
  intro fuel
  induction fuel with
  | zero =>
    intro k hfuel hk
    exfalso
    have h1 : 1 ≤ (sEnd - k * S + S - 1) / S := by
      rw [Nat.one_le_div_iff (by omega)]
      omega
    omega
  | succ n ih =>
    intro k hfuel hk
    have hsum32 : k * S + S < u32 := by
      rcases Nat.eq_zero_or_pos k with h0 | h1
      · subst h0; simpa using hS2
      · have hSk : S ≤ k * S := Nat.le_mul_of_pos_left S h1
        have hE : sEnd + sEnd < u32 := by norm_num [sEnd, u32]
        omega
    have hmod32 : (k * S + S) % u32 = k * S + S := Nat.mod_eq_of_lt hsum32
    by_cases hcont : k * S + S < sEnd
    · have hmodE : (k * S + S) % sEnd = k * S + S := Nat.mod_eq_of_lt hcont
      have hstep : stepDims S [k * S] [sEnd] = some [(k + 1) * S] := by
        simp only [stepDims, advanceFloat, hmod32, hmodE]
        have : (k + 1) * S = k * S + S := by ring
        simp [hcont, this]
      have hcount : (sEnd - k * S + S - 1) / S = (sEnd - (k + 1) * S + S - 1) / S + 1 := by
        have hA : sEnd - k * S + S - 1 = (sEnd - (k + 1) * S + S - 1) + S := by
          have h1 : (k + 1) * S = k * S + S := by ring
          omega
        rw [hA, Nat.add_div_right _ (by omega)]
      have hks : (k + 1) * S = k * S + S := by ring
      have hrec := ih (k + 1) (by omega) (by omega)
      rw [hcount]
      simp only [visitD, hstep, hrec, List.range_succ_eq_map, List.map_cons, List.map_map]
      refine congrArg₂ List.cons (by norm_num) ?_
      apply List.map_congr_left
      intro j hj
      simp only [Function.comp_apply]
      congr 1
      simp only [Nat.succ_eq_add_one]
      ring
    · have hstop : stepDims S [k * S] [sEnd] = none := by
        simp only [stepDims, advanceFloat, hmod32]
        simp [hcont, stepDims]
      have hone : (sEnd - k * S + S - 1) / S = 1 := by
        have hlow : 1 * S ≤ sEnd - k * S + S - 1 := by omega
        have hhigh : sEnd - k * S + S - 1 < (1 + 1) * S := by omega
        exact Nat.div_eq_of_lt_le hlow hhigh
      rw [hone]
      have hr1 : List.range 1 = [0] := rfl
      simp only [visitD, hstop, hr1, List.map_cons, List.map_nil]
      norm_num

/-- C8: over the bound [0, 1] with step size S, starting at encoded 0, the
enumeration visits exactly ceil(encode(1)/S) distinct points (for any
iteration budget at least that large, so in particular the loop
terminates), and the last visited point's encoding plus S reaches or passes
encode(1). -/
theorem c8_enumeration (S fuel : Nat) (h1 : 1 ≤ S) (h2 : S < u32)
    (hfuel : (sEnd + S - 1) / S ≤ fuel) :
    iterateInput 1 S 0 sEnd fuel =
      (List.range ((sEnd + S - 1) / S)).map (fun j => [j * S]) ∧
    (iterateInput 1 S 0 sEnd fuel).length = (sEnd + S - 1) / S ∧
    (iterateInput 1 S 0 sEnd fuel).Nodup ∧
    sEnd ≤ ((sEnd + S - 1) / S - 1) * S + S ∧
    (iterateInput 1 S 0 sEnd fuel).getLastD [] = [((sEnd + S - 1) / S - 1) * S] := by
  have hiter : iterateInput 1 S 0 sEnd fuel = visitD S [sEnd] fuel [0] := rfl
  have hchar := visit1D_char S h1 h2 fuel 0 (by simpa using hfuel) (by norm_num [sEnd])
  have hchar' : iterateInput 1 S 0 sEnd fuel =
      (List.range ((sEnd + S - 1) / S)).map (fun j => [j * S]) := by
    rw [hiter]
    have h0 : (0 : Nat) * S = 0 := by ring
    rw [← h0, hchar]
    simp
  have hE : 1 ≤ sEnd := by norm_num [sEnd]
  have hc1 : 1 ≤ (sEnd + S - 1) / S := by
    rw [Nat.one_le_div_iff (by omega)]
    omega
  have hcS : sEnd ≤ ((sEnd + S - 1) / S) * S := by
    have hdm := Nat.div_add_mod (sEnd + S - 1) S
    have hmlt : (sEnd + S - 1) % S < S := Nat.mod_lt _ (by omega)
    have hcomm : ((sEnd + S - 1) / S) * S = S * ((sEnd + S - 1) / S) := by ring
    omega
  refine ⟨hchar', ?_, ?_, ?_, ?_⟩
  · rw [hchar']
    simp
  · rw [hchar']
    have hinj : Function.Injective (fun j : Nat => [j * S]) := by
      intro a b hab
      simp only [List.cons.injEq, and_true] at hab
      exact Nat.eq_of_mul_eq_mul_right (by omega) hab
    exact (List.nodup_range _).map hinj
  · have hc' : (sEnd + S - 1) / S = ((sEnd + S - 1) / S - 1) + 1 := by omega
    have hee : ((sEnd + S - 1) / S - 1) * S + S = ((sEnd + S - 1) / S) * S := by
      calc ((sEnd + S - 1) / S - 1) * S + S
          = (((sEnd + S - 1) / S - 1) + 1) * S := by ring
        _ = ((sEnd + S - 1) / S) * S := by rw [← hc']
    omega
  · rw [hchar']
    have hsplit : List.range ((sEnd + S - 1) / S) =
        List.range ((sEnd + S - 1) / S - 1) ++ [(sEnd + S - 1) / S - 1] := by
      have : (sEnd + S - 1) / S = ((sEnd + S - 1) / S - 1) + 1 := by omega
      rw [this, List.range_succ]
      simp
    rw [hsplit, List.map_append]
    simp

theorem c8_enumeration_witness :
    iterateInput 1 sEnd 0 sEnd 1 =
      (List.range ((sEnd + sEnd - 1) / sEnd)).map (fun j => [j * sEnd]) ∧
    (iterateInput 1 sEnd 0 sEnd 1).length = (sEnd + sEnd - 1) / sEnd ∧
    (iterateInput 1 sEnd 0 sEnd 1).Nodup ∧
    sEnd ≤ ((sEnd + sEnd - 1) / sEnd - 1) * sEnd + sEnd ∧
    (iterateInput 1 sEnd 0 sEnd 1).getLastD [] = [((sEnd + sEnd - 1) / sEnd - 1) * sEnd] :=
  c8_enumeration sEnd 1 (by decide) (by decide) (by decide)

/-! ### The Top-K tracker: ProcessResult (C3, C10) -/

theorem firstMaxAux_spec :
    ∀ (rest : List Cand) (bi : Nat) (bs : ℚ) (i : Nat),
      (firstMaxAux bi bs i rest = bi ∧ ∀ c ∈ rest, c.2 ≤ bs) ∨
      (∃ kk, kk < rest.length ∧ firstMaxAux bi bs i rest = i + kk ∧
        bs < (rest.getD kk padC).2 ∧ ∀ c ∈ rest, c.2 ≤ (rest.getD kk padC).2) := by
  intro rest
  induction rest with
  | nil => intro bi bs i; left; exact ⟨rfl, by simp⟩
  | cons c rest' ih =>
    intro bi bs i
    by_cases hc : c.2 > bs
    · have hh : firstMaxAux bi bs i (c :: rest') = firstMaxAux i c.2 (i + 1) rest' := by
        simp [firstMaxAux, hc]
      rcases ih i c.2 (i + 1) with ⟨heq, hall⟩ | ⟨kk, hkk, heq, hgt, hall⟩
      · right
        refine ⟨0, by simp, by rw [hh, heq, Nat.add_zero], ?_, ?_⟩
        · simpa using hc
        · intro d hd
          rcases List.mem_cons.mp hd with h | h
          · subst h; simp
          · simpa using hall d h
      · right
        refine ⟨kk + 1, by simpa using hkk, by rw [hh, heq]; omega, ?_, ?_⟩
        · simp only [List.getD_cons_succ]
          exact lt_trans hc hgt
        · intro d hd
          rcases List.mem_cons.mp hd with h | h
          · subst h
            simp only [List.getD_cons_succ]
            exact le_of_lt hgt
          · simpa using hall d h
    · have hh : firstMaxAux bi bs i (c :: rest') = firstMaxAux bi bs (i + 1) rest' := by
        simp [firstMaxAux, hc]
      rcases ih bi bs (i + 1) with ⟨heq, hall⟩ | ⟨kk, hkk, heq, hgt, hall⟩
      · left
        refine ⟨by rw [hh, heq], ?_⟩
        intro d hd
        rcases List.mem_cons.mp hd with h | h
        · subst h; exact le_of_not_lt (by simpa using hc)
        · exact hall d h
      · right
        refine ⟨kk + 1, by simpa using hkk, by rw [hh, heq]; omega, ?_, ?_⟩
        · simp only [List.getD_cons_succ]
          exact lt_of_le_of_lt (le_of_not_lt (by simpa using hc)) hgt
        · intro d hd
          rcases List.mem_cons.mp hd with h | h
          · subst h
            simp only [List.getD_cons_succ]
            exact le_trans (le_of_not_lt (by simpa using hc)) (le_of_lt hgt)
          · simpa using hall d h

theorem set_multiset :
    ∀ (t : List Cand) (j : Nat) (a : Cand), j < t.length →
      (↑(t.set j a) : Multiset Cand) + {t.getD j padC} = (↑t : Multiset Cand) + {a} := by
  intro t
  induction t with
  | nil => intro j a hj; simp at hj
  | cons c t' ih =>
    intro j a hj
    cases j with
    | zero =>
      simp only [List.set_cons_zero, List.getD_cons_zero]
      simp only [← Multiset.cons_coe, ← Multiset.singleton_add]
      abel
    | succ n =>
      simp only [List.set_cons_succ, List.getD_cons_succ]
      have hn : n < t'.length := by simpa using hj
      have hthis := ih n a hn
      simp only [← Multiset.cons_coe, ← Multiset.singleton_add] at hthis ⊢
      calc {c} + (↑(t'.set n a) : Multiset Cand) + {t'.getD n padC}
          = {c} + ((↑(t'.set n a) : Multiset Cand) + {t'.getD n padC}) := by abel
        _ = {c} + ((↑t' : Multiset Cand) + {a}) := by rw [hthis]
        _ = {c} + (↑t' : Multiset Cand) + {a} := by abel

theorem swapAt0_multiset (l : List Cand) (j : Nat) (hj0 : 0 < j) (hj : j < l.length) :
    (↑(swapAt0 l j) : Multiset Cand) = (↑l : Multiset Cand) := by
  unfold swapAt0
  have h0 : 0 < l.length := lt_trans hj0 hj
  have hgd : (l.set 0 (l.getD j padC)).getD j padC = l.getD j padC := by
    rcases l with _ | ⟨c, t⟩
    · simp at h0
    · cases j with
      | zero => omega
      | succ n => simp
  have h1 := set_multiset l 0 (l.getD j padC) h0
  have h2 := set_multiset (l.set 0 (l.getD j padC)) j (l.getD 0 padC)
    (by simpa using hj)
  rw [hgd] at h2
  exact add_right_cancel (h2.trans h1)

theorem swapAt0_headD (l : List Cand) (j : Nat) (hj0 : 0 < j) (hj : j < l.length) :
    (swapAt0 l j).headD padC = l.getD j padC := by
  rcases l with _ | ⟨c, t⟩
  · simp at hj
  · cases j with
    | zero => omega
    | succ n => simp [swapAt0]

theorem processResult_reject (r0 : Cand) (rest : List Cand) (x : List Nat) (s : ℚ)
    (hs : ¬s < r0.2) :
    processResult (r0 :: rest) x s = r0 :: rest := by
  simp only [processResult]
  by_cases hlen : (r0 :: rest).length = 1
  · rw [if_pos hlen, if_neg hs]
  · rw [if_neg hlen, if_neg (by simpa using hs)]

theorem processResult_accept_multiset (r0 : Cand) (rest : List Cand) (x : List Nat)
    (s : ℚ) (hs : s < r0.2) :
    (↑(processResult (r0 :: rest) x s) : Multiset Cand) = (x, s) ::ₘ (↑rest) := by
  simp only [processResult]
  by_cases hlen : (r0 :: rest).length = 1
  · rw [if_pos hlen, if_pos hs]
    have hrest : rest = [] := by simpa using hlen
    subst hrest
    simp
  · rw [if_neg hlen, if_pos (by simpa using hs)]
    by_cases hj : firstMaxAux 0 s 1 rest > 0
    · rw [if_pos hj]
      have hjlt : firstMaxAux 0 s 1 rest < ((x, s) :: rest).length := by
        rcases firstMaxAux_spec rest 0 s 1 with ⟨heq, _⟩ | ⟨kk, hkk, heq, _, _⟩
        · omega
        · rw [heq]
          simp only [List.length_cons]
          omega
      rw [swapAt0_multiset _ _ hj hjlt]
      simp [← Multiset.cons_coe]
    · rw [if_neg hj]
      simp [← Multiset.cons_coe]

theorem processResult_accept_headWorst (r0 : Cand) (rest : List Cand) (x : List Nat)
    (s : ℚ) (hs : s < r0.2) (hinv : headWorst (r0 :: rest)) :
    headWorst (processResult (r0 :: rest) x s) := by
  simp only [processResult]
  by_cases hlen : (r0 :: rest).length = 1
  · rw [if_pos hlen, if_pos hs]
    intro c hc
    simp only [List.mem_singleton] at hc
    subst hc
    simp
  · rw [if_neg hlen, if_pos (by simpa using hs)]
    rcases firstMaxAux_spec rest 0 s 1 with ⟨heq, hall⟩ | ⟨kk, hkk, heq, hgt, hall⟩
    · rw [heq]
      rw [if_neg (by simp : ¬(0 : Nat) > 0)]
      intro c hc
      rcases List.mem_cons.mp hc with h | h
      · subst h; simp
      · simpa using hall c h
    · have hj0 : 0 < firstMaxAux 0 s 1 rest := by omega
      have hjlt : firstMaxAux 0 s 1 rest < ((x, s) :: rest).length := by
        rw [heq]; simp only [List.length_cons]; omega
      rw [if_pos hj0]
      intro c hc
      have hmem : c ∈ ((x, s) :: rest) := by
        have hms := swapAt0_multiset ((x, s) :: rest) _ hj0 hjlt
        have : c ∈ (↑(swapAt0 ((x, s) :: rest) (firstMaxAux 0 s 1 rest)) : Multiset Cand) := by
          simpa using hc
        rw [hms] at this
        simpa using this
      rw [swapAt0_headD _ _ hj0 hjlt, heq,
        show 1 + kk = kk + 1 from Nat.add_comm 1 kk]
      simp only [List.getD_cons_succ]
      rcases List.mem_cons.mp hmem with h | h
      · subst h
        simpa using le_of_lt hgt
      · simpa using hall c h

theorem processResult_head_le (r0 : Cand) (rest : List Cand) (x : List Nat) (s : ℚ)
    (hinv : headWorst (r0 :: rest)) :
    ((processResult (r0 :: rest) x s).headD padC).2 ≤ r0.2 := by
  by_cases hs : s < r0.2
  · simp only [processResult]
    by_cases hlen : (r0 :: rest).length = 1
    · rw [if_pos hlen, if_pos hs]
      simpa using le_of_lt hs
    · rw [if_neg hlen, if_pos (by simpa using hs)]
      rcases firstMaxAux_spec rest 0 s 1 with ⟨heq, _⟩ | ⟨kk, hkk, heq, hgt, hall⟩
      · rw [heq]
        rw [if_neg (by simp : ¬(0 : Nat) > 0)]
        simpa using le_of_lt hs
      · have hj0 : 0 < firstMaxAux 0 s 1 rest := by omega
        have hjlt : firstMaxAux 0 s 1 rest < ((x, s) :: rest).length := by
          rw [heq]; simp only [List.length_cons]; omega
        rw [if_pos hj0, swapAt0_headD _ _ hj0 hjlt, heq,
          show 1 + kk = kk + 1 from Nat.add_comm 1 kk]
        simp only [List.getD_cons_succ]
        have hmem : rest.getD kk padC ∈ rest := by
          rw [List.getD_eq_getElem _ _ hkk]
          exact List.getElem_mem hkk
        simpa using hinv _ (List.mem_cons_of_mem _ hmem)
  · rw [processResult_reject _ _ _ _ hs]
    simp

theorem headWorst_init (K : Nat) : headWorst (initState K) := by
  intro c hc
  have hceq : c = padC := List.eq_of_mem_replicate (by simpa [initState] using hc)
  subst hceq
  cases K with
  | zero => simp [initState] at hc
  | succ n => simp [initState, List.replicate_succ]

theorem scoresOf_coe (l : List Cand) :
    scoresOf l = Multiset.map (fun c => c.2) (↑l : Multiset Cand) := by
  simp [scoresOf]

/-- C3: observe accepts a candidate iff its score is strictly below the
current worst (slot 0) score: on rejection — including a score equal to the
worst — the state is unchanged; on acceptance the worst slot is replaced by
the new candidate (held multiset changes by removing the worst slot and
inserting the candidate), the slot carrying the new worst is recomputed to
the front, and the capacity K is preserved.  For K = 1 the sole held slot is
both head and worst, so this is exactly replace-iff-strictly-less. -/
theorem c3_observe_accepts_iff_strictly_less (st : List Cand) (x : List Nat) (s : ℚ)
    (hne : st ≠ []) (hinv : headWorst st) :
    (¬s < (st.headD padC).2 → processResult st x s = st) ∧
    (s < (st.headD padC).2 →
      (↑(processResult st x s) : Multiset Cand) + {st.headD padC}
        = (↑st : Multiset Cand) + {(x, s)} ∧
      headWorst (processResult st x s) ∧
      (processResult st x s).length = st.length) := by
  rcases st with _ | ⟨r0, rest⟩
  · exact absurd rfl hne
  · simp only [List.headD_cons]
    refine ⟨fun hs => processResult_reject r0 rest x s hs, fun hs => ⟨?_, ?_, ?_⟩⟩
    · rw [processResult_accept_multiset r0 rest x s hs]
      simp only [← Multiset.cons_coe, ← Multiset.singleton_add]
      abel
    · exact processResult_accept_headWorst r0 rest x s hs hinv
    · have hm := processResult_accept_multiset r0 rest x s hs
      have hc := congrArg Multiset.card hm
      simpa using hc

theorem c3_observe_accepts_iff_strictly_less_witness :
    (¬(4 : ℚ) < (([(([1] : List Nat), (5 : ℚ)), ([2], 3)].headD padC).2) →
      processResult [(([1] : List Nat), (5 : ℚ)), ([2], 3)] [9] 4
        = [(([1] : List Nat), (5 : ℚ)), ([2], 3)]) ∧
    ((4 : ℚ) < (([(([1] : List Nat), (5 : ℚ)), ([2], 3)].headD padC).2) →
      (↑(processResult [(([1] : List Nat), (5 : ℚ)), ([2], 3)] [9] 4) : Multiset Cand)
          + {[(([1] : List Nat), (5 : ℚ)), ([2], 3)].headD padC}
        = (↑([(([1] : List Nat), (5 : ℚ)), ([2], 3)] : List Cand) : Multiset Cand)
            + {([9], 4)} ∧
      headWorst (processResult [(([1] : List Nat), (5 : ℚ)), ([2], 3)] [9] 4) ∧
      (processResult [(([1] : List Nat), (5 : ℚ)), ([2], 3)] [9] 4).length
        = [(([1] : List Nat), (5 : ℚ)), ([2], 3)].length) :=
  c3_observe_accepts_iff_strictly_less [([1], 5), ([2], 3)] [9] 4 (by simp)
    (by
      intro c hc
      simp only [List.mem_cons, List.not_mem_nil, or_false] at hc
      rcases hc with h | h <;> (subst h; simp; try norm_num))

/-- C10: for K > 1 the per-thread result array keeps slot 0 at the worst
held score — after construction (all slots at the FLT_MAX sentinel) and
after every ProcessResult call — and every call either leaves the held
score multiset unchanged or replaces the current worst score with a
strictly smaller one, so the worst held score never increases. -/
theorem c10_slot0_worst_invariant (K : Nat) (hK : 1 < K) :
    headWorst (initState K) ∧
    (∀ c ∈ initState K, c.2 = fltMax) ∧
    (∀ (st : List Cand) (x : List Nat) (s : ℚ), st.length = K → headWorst st →
      headWorst (processResult st x s) ∧
      (processResult st x s).length = K ∧
      (scoresOf (processResult st x s) = scoresOf st ∨
        (s < (st.headD padC).2 ∧
          scoresOf (processResult st x s) + {(st.headD padC).2} = scoresOf st + {s})) ∧
      ((processResult st x s).headD padC).2 ≤ (st.headD padC).2) := by
  refine ⟨headWorst_init K, ?_, ?_⟩
  · intro c hc
    have hceq : c = padC := List.eq_of_mem_replicate (by simpa [initState] using hc)
    subst hceq
    rfl
  · intro st x s hlen hinv
    rcases st with _ | ⟨r0, rest⟩
    · simp at hlen
      omega
    · simp only [List.headD_cons]
      by_cases hs : s < r0.2
      · refine ⟨processResult_accept_headWorst r0 rest x s hs hinv, ?_, ?_, ?_⟩
        · have hm := processResult_accept_multiset r0 rest x s hs
          have hc := congrArg Multiset.card hm
          simp only [Multiset.coe_card, Multiset.card_cons] at hc
          simp only [hc, List.length_cons] at hlen ⊢
          simpa using hlen
        · right
          refine ⟨hs, ?_⟩
          have hm := processResult_accept_multiset r0 rest x s hs
          have hmm := congrArg (Multiset.map (fun c : Cand => c.2)) hm
          rw [scoresOf_coe, scoresOf_coe, hmm]
          simp only [← Multiset.cons_coe, Multiset.map_cons, ← Multiset.singleton_add,
            Multiset.map_add, Multiset.map_singleton]
          abel
        · exact processResult_head_le r0 rest x s hinv
      · rw [processResult_reject r0 rest x s hs]
        refine ⟨hinv, by simpa using hlen, Or.inl rfl, by simp⟩

theorem c10_slot0_worst_invariant_witness :
    headWorst (initState 2) ∧
    (∀ c ∈ initState 2, c.2 = fltMax) ∧
    (∀ (st : List Cand) (x : List Nat) (s : ℚ), st.length = 2 → headWorst st →
      headWorst (processResult st x s) ∧
      (processResult st x s).length = 2 ∧
      (scoresOf (processResult st x s) = scoresOf st ∨
        (s < (st.headD padC).2 ∧
          scoresOf (processResult st x s) + {(st.headD padC).2} = scoresOf st + {s})) ∧
      ((processResult st x s).headD padC).2 ≤ (st.headD padC).2) :=
  c10_slot0_worst_invariant 2 (by norm_num)

/-! ### Fold invariants of the tracker -/

theorem processResult_length (st : List Cand) (x : List Nat) (s : ℚ) :
    (processResult st x s).length = st.length := by
  rcases st with _ | ⟨r0, rest⟩
  · rfl
  · by_cases hs : s < r0.2
    · have hm := processResult_accept_multiset r0 rest x s hs
      have hc := congrArg Multiset.card hm
      simpa using hc
    · rw [processResult_reject r0 rest x s hs]

theorem processResult_headWorst (st : List Cand) (x : List Nat) (s : ℚ)
    (hinv : headWorst st) : headWorst (processResult st x s) := by
  rcases st with _ | ⟨r0, rest⟩
  · exact hinv
  · by_cases hs : s < r0.2
    · exact processResult_accept_headWorst r0 rest x s hs hinv
    · rw [processResult_reject r0 rest x s hs]
      exact hinv

theorem processResult_headD_le (st : List Cand) (x : List Nat) (s : ℚ)
    (hinv : headWorst st) :
    ((processResult st x s).headD padC).2 ≤ (st.headD padC).2 := by
  rcases st with _ | ⟨r0, rest⟩
  · exact le_refl _
  · simpa using processResult_head_le r0 rest x s hinv

theorem foldPR_length (l : List Cand) :
    ∀ st : List Cand, (foldPR st l).length = st.length := by
  induction l with
  | nil => intro st; rfl
  | cons c l' ih =>
    intro st
    show (foldPR (processResult st c.1 c.2) l').length = st.length
    rw [ih, processResult_length]

theorem foldPR_headWorst (l : List Cand) :
    ∀ st : List Cand, headWorst st → headWorst (foldPR st l) := by
  induction l with
  | nil => intro st h; exact h
  | cons c l' ih =>
    intro st h
    exact ih _ (processResult_headWorst st c.1 c.2 h)

theorem foldPR_headD_le (l : List Cand) :
    ∀ st : List Cand, headWorst st →
      ((foldPR st l).headD padC).2 ≤ (st.headD padC).2 := by
  induction l with
  | nil => intro st _; exact le_refl _
  | cons c l' ih =>
    intro st h
    exact le_trans (ih _ (processResult_headWorst st c.1 c.2 h))
      (processResult_headD_le st c.1 c.2 h)

theorem processResult_mem (st : List Cand) (x : List Nat) (s : ℚ) (c : Cand)
    (hc : c ∈ processResult st x s) : c ∈ st ∨ c = (x, s) := by
  rcases st with _ | ⟨r0, rest⟩
  · simp [processResult] at hc
  · by_cases hs : s < r0.2
    · have hm := processResult_accept_multiset r0 rest x s hs
      have : c ∈ ((x, s) ::ₘ (↑rest : Multiset Cand)) := by
        rw [← hm]
        simpa using hc
      rcases Multiset.mem_cons.mp this with h | h
      · exact Or.inr h
      · exact Or.inl (List.mem_cons_of_mem _ (by simpa using h))
    · rw [processResult_reject r0 rest x s hs] at hc
      exact Or.inl hc

theorem foldPR_mem_strong (l : List Cand) :
    ∀ (st : List Cand), headWorst st → ∀ c ∈ foldPR st l,
      c ∈ st ∨ (c ∈ l ∧ c.2 < (st.headD padC).2) := by
  induction l with
  | nil => intro st _ c hc; exact Or.inl hc
  | cons c0 l' ih =>
    intro st hinv c hc
    have hinv' := processResult_headWorst st c0.1 c0.2 hinv
    rcases ih _ hinv' c hc with h | ⟨hmem, hlt⟩
    · rcases processResult_mem st c0.1 c0.2 c h with h2 | h2
      · exact Or.inl h2
      · rcases st with _ | ⟨r0, rest⟩
        · simp [processResult] at h
        · by_cases hs : c0.2 < r0.2
          · right
            have h3 : c = c0 := by rw [h2]
            subst h3
            exact ⟨List.mem_cons_self _ _, by simpa using hs⟩
          · rw [processResult_reject r0 rest c0.1 c0.2 hs] at h
            exact Or.inl h
    · right
      refine ⟨List.mem_cons_of_mem _ hmem, ?_⟩
      exact lt_of_lt_of_le hlt (processResult_headD_le st c0.1 c0.2 hinv)

theorem processResult_scores_accept (r0 : Cand) (rest : List Cand) (x : List Nat)
    (s : ℚ) (hs : s < r0.2) :
    scoresOf (processResult (r0 :: rest) x s) + {r0.2}
      = scoresOf (r0 :: rest) + {s} := by
  have hm := processResult_accept_multiset r0 rest x s hs
  have hmm := congrArg (Multiset.map (fun c : Cand => c.2)) hm
  rw [scoresOf_coe, scoresOf_coe, hmm]
  simp only [← Multiset.cons_coe, Multiset.map_cons, ← Multiset.singleton_add,
    Multiset.map_add, Multiset.map_singleton]
  abel

theorem foldPR_dropped (l : List Cand) :
    ∀ st : List Cand, st ≠ [] → headWorst st →
      ∃ Dp : Multiset ℚ, scoresOf st + scoresOf l = scoresOf (foldPR st l) + Dp ∧
        ∀ b ∈ Dp, ((foldPR st l).headD padC).2 ≤ b := by
  induction l with
  | nil =>
    intro st _ _
    refine ⟨0, ?_, by simp⟩
    show scoresOf st + scoresOf [] = scoresOf st + 0
    simp [scoresOf]
  | cons c l' ih =>
    intro st hne hinv
    have hinv' := processResult_headWorst st c.1 c.2 hinv
    have hne' : processResult st c.1 c.2 ≠ [] := by
      intro hcontra
      have := processResult_length st c.1 c.2
      rw [hcontra] at this
      exact hne (List.length_eq_zero.mp this.symm)
    obtain ⟨Dp', heq', hb'⟩ := ih (processResult st c.1 c.2) hne' hinv'
    rcases st with _ | ⟨r0, rest⟩
    · exact absurd rfl hne
    · by_cases hs : c.2 < r0.2
      · refine ⟨Dp' + {r0.2}, ?_, ?_⟩
        · have hacc := processResult_scores_accept r0 rest c.1 c.2 hs
          show scoresOf (r0 :: rest) + scoresOf (c :: l')
            = scoresOf (foldPR (processResult (r0 :: rest) c.1 c.2) l') + (Dp' + {r0.2})
          have hsc : scoresOf (c :: l') = {c.2} + scoresOf l' := by
            simp only [scoresOf, List.map_cons, ← Multiset.cons_coe,
              ← Multiset.singleton_add]
          calc scoresOf (r0 :: rest) + scoresOf (c :: l')
              = (scoresOf (r0 :: rest) + {c.2}) + scoresOf l' := by rw [hsc]; abel
            _ = (scoresOf (processResult (r0 :: rest) c.1 c.2) + {r0.2}) + scoresOf l' := by
                rw [hacc]
            _ = (scoresOf (processResult (r0 :: rest) c.1 c.2) + scoresOf l') + {r0.2} := by
                abel
            _ = (scoresOf (foldPR (processResult (r0 :: rest) c.1 c.2) l') + Dp') + {r0.2} := by
                rw [heq']
            _ = scoresOf (foldPR (processResult (r0 :: rest) c.1 c.2) l') + (Dp' + {r0.2}) := by
                abel
        · intro b hb
          rcases Multiset.mem_add.mp hb with h | h
          · exact hb' b h
          · have hbe : b = r0.2 := by simpa using h
            subst hbe
            have h1 := foldPR_headD_le l' (processResult (r0 :: rest) c.1 c.2) hinv'
            have h2 := processResult_headD_le (r0 :: rest) c.1 c.2 hinv
            show ((foldPR (processResult (r0 :: rest) c.1 c.2) l').headD padC).2 ≤ r0.2
            calc ((foldPR (processResult (r0 :: rest) c.1 c.2) l').headD padC).2
                ≤ ((processResult (r0 :: rest) c.1 c.2).headD padC).2 := h1
              _ ≤ ((r0 :: rest).headD padC).2 := h2
              _ = r0.2 := by simp
      · refine ⟨Dp' + {c.2}, ?_, ?_⟩
        · show scoresOf (r0 :: rest) + scoresOf (c :: l')
            = scoresOf (foldPR (processResult (r0 :: rest) c.1 c.2) l') + (Dp' + {c.2})
          rw [processResult_reject r0 rest c.1 c.2 hs] at heq' ⊢
          have hsc : scoresOf (c :: l') = {c.2} + scoresOf l' := by
            simp only [scoresOf, List.map_cons, ← Multiset.cons_coe,
              ← Multiset.singleton_add]
          calc scoresOf (r0 :: rest) + scoresOf (c :: l')
              = (scoresOf (r0 :: rest) + scoresOf l') + {c.2} := by rw [hsc]; abel
            _ = (scoresOf (foldPR (r0 :: rest) l') + Dp') + {c.2} := by rw [heq']
            _ = scoresOf (foldPR (r0 :: rest) l') + (Dp' + {c.2}) := by abel
        · show ∀ b ∈ Dp' + {c.2},
            ((foldPR (processResult (r0 :: rest) c.1 c.2) l').headD padC).2 ≤ b
          rw [processResult_reject r0 rest c.1 c.2 hs] at hb' ⊢
          intro b hb
          rcases Multiset.mem_add.mp hb with h | h
          · exact hb' b h
          · have hbe : b = c.2 := by simpa using h
            subst hbe
            have h1 := foldPR_headD_le l' (r0 :: rest) hinv
            have h2 : r0.2 ≤ c.2 := le_of_not_lt hs
            calc ((foldPR (r0 :: rest) l').headD padC).2
                ≤ ((r0 :: rest).headD padC).2 := h1
              _ = r0.2 := by simp
              _ ≤ c.2 := h2

/-! ### Run-level facts and the bottom-K characterization -/

theorem initState_headD (K : Nat) : (initState K).headD padC = padC := by
  cases K with
  | zero => rfl
  | succ n => simp [initState, List.replicate_succ]

theorem initState_scores (K : Nat) :
    scoresOf (initState K) = Multiset.replicate K fltMax := by
  simp [scoresOf, initState, padC, Multiset.coe_replicate]

theorem runT_length (K : Nat) (l : List Cand) : (runT K l).length = K := by
  unfold runT
  rw [foldPR_length]
  simp [initState]

theorem runT_headWorst (K : Nat) (l : List Cand) : headWorst (runT K l) :=
  foldPR_headWorst l (initState K) (headWorst_init K)

theorem runT_headD_le (K : Nat) (l : List Cand) :
    ((runT K l).headD padC).2 ≤ fltMax := by
  have h := foldPR_headD_le l (initState K) (headWorst_init K)
  rw [initState_headD] at h
  exact h

theorem runT_scores_le (K : Nat) (l : List Cand) :
    ∀ a ∈ scoresOf (runT K l), a ≤ fltMax := by
  intro a ha
  rw [scoresOf_coe] at ha
  obtain ⟨c, hc, hca⟩ := Multiset.mem_map.mp ha
  subst hca
  exact le_trans (runT_headWorst K l c (by simpa using hc)) (runT_headD_le K l)

theorem runT_mem (K : Nat) (l : List Cand) :
    ∀ c ∈ runT K l, c = padC ∨ (c ∈ l ∧ c.2 < fltMax) := by
  intro c hc
  have h := foldPR_mem_strong l (initState K) (headWorst_init K) c hc
  rw [initState_headD] at h
  rcases h with h | h
  · exact Or.inl (List.eq_of_mem_replicate (by simpa [initState] using h))
  · exact Or.inr h

theorem runT_dropped (K : Nat) (hK : 1 ≤ K) (l : List Cand) :
    ∃ Dp : Multiset ℚ,
      Multiset.replicate K fltMax + scoresOf l = scoresOf (runT K l) + Dp ∧
      ∀ b ∈ Dp, ∀ a ∈ scoresOf (runT K l), a ≤ b := by
  have hne : initState K ≠ [] := by
    simp only [initState, ne_eq, List.replicate_eq_nil_iff]
    omega
  obtain ⟨Dp, heq, hb⟩ := foldPR_dropped l (initState K) hne (headWorst_init K)
  rw [initState_scores] at heq
  refine ⟨Dp, heq, ?_⟩
  intro b hbD a ha
  rw [scoresOf_coe] at ha
  obtain ⟨c, hc, hca⟩ := Multiset.mem_map.mp ha
  subst hca
  exact le_trans (runT_headWorst K l c (by simpa using hc)) (hb b hbD)

theorem multiset_diff_add_eq (H M D : Multiset ℚ) (hle : H ≤ M) :
    (M + D) - H = (M - H) + D := by
  ext x
  have h1 := Multiset.count_le_of_le x hle
  simp only [Multiset.count_sub, Multiset.count_add]
  omega

theorem bottom_self (K : Nat) (H : Multiset ℚ) (hcard : Multiset.card H = K) :
    IsBottomK K H H := by
  refine ⟨le_refl _, hcard, ?_⟩
  intro a _ b hb
  have hzero : H - H = 0 := by
    ext x
    simp [Multiset.count_sub]
  rw [hzero] at hb
  simp at hb

theorem bottom_extend (K : Nat) (H M S Dp : Multiset ℚ) (hbot : IsBottomK K H M)
    (hS : S ≤ M) (hcard : Multiset.card S = K)
    (hdom : ∀ b ∈ Dp, ∀ e ∈ S, e ≤ b) : IsBottomK K H (M + Dp) := by
  obtain ⟨hle, hcardH, hprop⟩ := hbot
  refine ⟨le_trans hle (Multiset.le_add_right _ _), hcardH, ?_⟩
  intro a ha b hb
  rw [multiset_diff_add_eq H M Dp hle] at hb
  rcases Multiset.mem_add.mp hb with hbM | hbD
  · exact hprop a ha b hbM
  · by_contra hab
    have hab' : b < a := not_le.mp hab
    have hSH : S ≤ H := by
      rw [Multiset.le_iff_count]
      intro x
      by_cases hx : x ∈ S
      · have hxb : x ≤ b := hdom b hbD x hx
        have hcnt : Multiset.count x H = Multiset.count x M := by
          by_contra hne
          have hlt : Multiset.count x H < Multiset.count x M :=
            lt_of_le_of_ne (Multiset.count_le_of_le x hle) hne
          have hxmem : x ∈ M - H := by
            rw [← Multiset.count_pos, Multiset.count_sub]
            omega
          exact absurd (le_trans (hprop a ha x hxmem) hxb) (not_le.mpr hab')
        rw [hcnt]
        exact Multiset.count_le_of_le x hS
      · simp [Multiset.count_eq_zero_of_not_mem hx]
    have hSeq : S = H := Multiset.eq_of_le_of_card_le hSH (by omega)
    exact absurd (hdom b hbD a (hSeq ▸ ha)) (not_le.mpr hab')

theorem bottom_peel (K : Nat) (H M : Multiset ℚ) (c : ℚ)
    (hbot : IsBottomK (K + 1) H M) (hc : c ∈ H) :
    IsBottomK K (H.erase c) (M.erase c) := by
  obtain ⟨hle, hcard, hprop⟩ := hbot
  refine ⟨Multiset.erase_le_erase c hle, ?_, ?_⟩
  · rw [Multiset.card_erase_of_mem hc, hcard]
    rfl
  · intro a ha b hb
    have haH : a ∈ H := Multiset.mem_of_mem_erase ha
    have hdiff : M.erase c - H.erase c = M - H := by
      ext x
      have hc1 : 1 ≤ Multiset.count c H := Multiset.one_le_count_iff_mem.mpr hc
      have hc2 : Multiset.count c H ≤ Multiset.count c M := Multiset.count_le_of_le c hle
      by_cases hx : x = c
      · subst hx
        simp only [Multiset.count_sub, Multiset.count_erase_self]
        omega
      · simp only [Multiset.count_sub, Multiset.count_erase_of_ne hx]
    rw [hdiff] at hb
    exact hprop a haH b hb

theorem bottom_unique (K : Nat) :
    ∀ (H1 H2 M : Multiset ℚ), IsBottomK K H1 M → IsBottomK K H2 M → H1 = H2 := by
  induction K with
  | zero =>
    intro H1 H2 M h1 h2
    rw [Multiset.card_eq_zero.mp h1.2.1, Multiset.card_eq_zero.mp h2.2.1]
  | succ n ih =>
    intro H1 H2 M h1 h2
    obtain ⟨a, haH1⟩ : ∃ a, a ∈ H1 :=
      Multiset.card_pos_iff_exists_mem.mp (by rw [h1.2.1]; omega)
    have hshare : ∃ c, c ∈ H1 ∧ c ∈ H2 := by
      by_cases haH2 : a ∈ H2
      · exact ⟨a, haH1, haH2⟩
      · have haMH2 : a ∈ M - H2 := by
          rw [← Multiset.count_pos, Multiset.count_sub]
          have h1c : 1 ≤ Multiset.count a M :=
            Multiset.one_le_count_iff_mem.mpr (Multiset.mem_of_le h1.1 haH1)
          have h2c : Multiset.count a H2 = 0 := Multiset.count_eq_zero_of_not_mem haH2
          omega
        obtain ⟨b, hbH2⟩ : ∃ b, b ∈ H2 :=
          Multiset.card_pos_iff_exists_mem.mp (by rw [h2.2.1]; omega)
        by_cases hbH1 : b ∈ H1
        · exact ⟨b, hbH1, hbH2⟩
        · have hbMH1 : b ∈ M - H1 := by
            rw [← Multiset.count_pos, Multiset.count_sub]
            have h1c : 1 ≤ Multiset.count b M :=
              Multiset.one_le_count_iff_mem.mpr (Multiset.mem_of_le h2.1 hbH2)
            have h2c : Multiset.count b H1 = 0 := Multiset.count_eq_zero_of_not_mem hbH1
            omega
          have heqab : a = b :=
            le_antisymm (h1.2.2 a haH1 b hbMH1) (h2.2.2 b hbH2 a haMH2)
          exact ⟨a, haH1, heqab ▸ hbH2⟩
    obtain ⟨c, hcH1, hcH2⟩ := hshare
    have hpeel1 := bottom_peel n H1 M c h1 hcH1
    have hpeel2 := bottom_peel n H2 M c h2 hcH2
    have heq := ih _ _ _ hpeel1 hpeel2
    rw [← Multiset.cons_erase hcH1, ← Multiset.cons_erase hcH2, heq]

theorem scoresOf_card (l : List Cand) : Multiset.card (scoresOf l) = l.length := by
  simp [scoresOf]

theorem scoresOf_cons (c : Cand) (l : List Cand) :
    scoresOf (c :: l) = {c.2} + scoresOf l := by
  simp only [scoresOf, List.map_cons, ← Multiset.cons_coe, ← Multiset.singleton_add]

theorem headWorst_scores (st : List Cand) (hinv : headWorst st) :
    ∀ a ∈ scoresOf st, a ≤ (st.headD padC).2 := by
  intro a ha
  rw [scoresOf_coe] at ha
  obtain ⟨c, hc, hca⟩ := Multiset.mem_map.mp ha
  subst hca
  exact hinv c (by simpa using hc)

theorem head_mem_scores (st : List Cand) (hne : st ≠ []) :
    (st.headD padC).2 ∈ scoresOf st := by
  rcases st with _ | ⟨r0, rest⟩
  · exact absurd rfl hne
  · rw [scoresOf_cons]
    simp

theorem bottom_step_accept (r0 : Cand) (rest : List Cand) (c : Cand) (M : Multiset ℚ)
    (hinv : headWorst (r0 :: rest)) (hs : c.2 < r0.2)
    (hbot : IsBottomK (r0 :: rest).length (scoresOf (r0 :: rest)) M) :
    IsBottomK (r0 :: rest).length
      (scoresOf (processResult (r0 :: rest) c.1 c.2)) (M + {c.2}) := by
  obtain ⟨hle, hcard, hprop⟩ := hbot
  have hacc := processResult_scores_accept r0 rest c.1 c.2 hs
  have hcnt : ∀ x : ℚ,
      Multiset.count x (scoresOf (processResult (r0 :: rest) c.1 c.2))
        + (if x = r0.2 then 1 else 0)
      = Multiset.count x (scoresOf (r0 :: rest)) + (if x = c.2 then 1 else 0) := by
    intro x
    have := congrArg (Multiset.count x) hacc
    simpa [Multiset.count_add, Multiset.count_singleton] using this
  have hr0H : r0.2 ∈ scoresOf (r0 :: rest) := by
    rw [scoresOf_cons]; simp
  have hr0c : 1 ≤ Multiset.count r0.2 (scoresOf (r0 :: rest)) :=
    Multiset.one_le_count_iff_mem.mpr hr0H
  refine ⟨?_, ?_, ?_⟩
  · rw [Multiset.le_iff_count]
    intro x
    have h1 := hcnt x
    have h2 := Multiset.count_le_of_le x hle
    simp only [Multiset.count_add, Multiset.count_singleton]
    by_cases hx1 : x = r0.2
    · subst hx1
      by_cases hx2 : r0.2 = c.2
      · simp only [if_pos rfl, if_pos hx2] at h1 ⊢
        omega
      · simp only [if_pos rfl, if_neg hx2] at h1 ⊢
        omega
    · by_cases hx2 : x = c.2
      · simp only [if_neg hx1, if_pos hx2] at h1 ⊢
        omega
      · simp only [if_neg hx1, if_neg hx2] at h1 ⊢
        omega
  · rw [scoresOf_card, processResult_length]
  · intro a ha b hb
    have hdiff : (M + {c.2}) - scoresOf (processResult (r0 :: rest) c.1 c.2)
        = (M - scoresOf (r0 :: rest)) + {r0.2} := by
      ext x
      have h1 := hcnt x
      have h2 := Multiset.count_le_of_le x hle
      simp only [Multiset.count_sub, Multiset.count_add, Multiset.count_singleton] at h1 ⊢
      by_cases hx1 : x = r0.2
      · subst hx1
        by_cases hx2 : r0.2 = c.2
        · simp only [if_pos rfl, if_pos hx2] at h1 ⊢
          omega
        · simp only [if_pos rfl, if_neg hx2] at h1 ⊢
          omega
      · by_cases hx2 : x = c.2
        · simp only [if_neg hx1, if_pos hx2] at h1 ⊢
          omega
        · simp only [if_neg hx1, if_neg hx2] at h1 ⊢
          omega
    rw [hdiff] at hb
    have hamem : a ∈ scoresOf (r0 :: rest) ∨ a = c.2 := by
      have h1 := hcnt a
      have ha1 : 1 ≤ Multiset.count a (scoresOf (processResult (r0 :: rest) c.1 c.2)) :=
        Multiset.one_le_count_iff_mem.mpr ha
      by_cases hx2 : a = c.2
      · exact Or.inr hx2
      · left
        rw [← Multiset.count_pos]
        by_cases hx1 : a = r0.2
        · subst hx1
          simp only [if_pos rfl, if_neg hx2] at h1
          omega
        · simp only [if_neg hx1, if_neg hx2] at h1
          omega
    rcases Multiset.mem_add.mp hb with hbM | hbr
    · rcases hamem with h | h
      · exact hprop a h b hbM
      · subst h
        exact le_trans (le_of_lt hs) (hprop r0.2 hr0H b hbM)
    · have hbe : b = r0.2 := by simpa using hbr
      subst hbe
      rcases hamem with h | h
      · have := headWorst_scores (r0 :: rest) hinv a h
        simpa using this
      · subst h
        exact le_of_lt hs

theorem foldPR_bottom (l : List Cand) :
    ∀ (st : List Cand) (M : Multiset ℚ), st ≠ [] → headWorst st →
      IsBottomK st.length (scoresOf st) M →
      IsBottomK st.length (scoresOf (foldPR st l)) (M + scoresOf l) := by
  induction l with
  | nil =>
    intro st M hne hinv hbot
    have h0 : scoresOf ([] : List Cand) = 0 := rfl
    show IsBottomK st.length (scoresOf st) (M + scoresOf ([] : List Cand))
    rw [h0, add_zero]
    exact hbot
  | cons c l' ih =>
    intro st M hne hinv hbot
    have hinv' := processResult_headWorst st c.1 c.2 hinv
    have hne' : processResult st c.1 c.2 ≠ [] := by
      intro hcontra
      have := processResult_length st c.1 c.2
      rw [hcontra] at this
      exact hne (List.length_eq_zero.mp this.symm)
    have hlen' := processResult_length st c.1 c.2
    rcases st with _ | ⟨r0, rest⟩
    · exact absurd rfl hne
    · show IsBottomK (r0 :: rest).length
        (scoresOf (foldPR (processResult (r0 :: rest) c.1 c.2) l'))
        (M + scoresOf (c :: l'))
      by_cases hs : c.2 < r0.2
      · have hbot' := bottom_step_accept r0 rest c M hinv hs hbot
        have hstep := ih (processResult (r0 :: rest) c.1 c.2) (M + {c.2}) hne' hinv'
          (by rw [hlen']; exact hbot')
        rw [hlen'] at hstep
        have hre : M + {c.2} + scoresOf l' = M + scoresOf (c :: l') := by
          rw [scoresOf_cons]
          abel
        rw [hre] at hstep
        exact hstep
      · have hbot' : IsBottomK (r0 :: rest).length (scoresOf (r0 :: rest)) (M + {c.2}) := by
        -- extend by the rejected score
          refine bottom_extend _ _ _ (scoresOf (r0 :: rest)) _ hbot (hbot.1)
            (by rw [scoresOf_card]) ?_
          intro b hbD e he
          have hbe : b = c.2 := by simpa using hbD
          subst hbe
          have h1 := headWorst_scores (r0 :: rest) hinv e he
          have h2 : r0.2 ≤ c.2 := le_of_not_lt hs
          calc e ≤ (((r0 :: rest)).headD padC).2 := h1
            _ = r0.2 := by simp
            _ ≤ c.2 := h2
        have hstep := ih (processResult (r0 :: rest) c.1 c.2) (M + {c.2}) hne' hinv'
          (by rw [hlen', processResult_reject r0 rest c.1 c.2 hs]; exact hbot')
        rw [hlen'] at hstep
        have hre : M + {c.2} + scoresOf l' = M + scoresOf (c :: l') := by
          rw [scoresOf_cons]
          abel
        rw [hre] at hstep
        exact hstep

theorem runT_bottom (K : Nat) (hK : 1 ≤ K) (l : List Cand) :
    IsBottomK K (scoresOf (runT K l)) (Multiset.replicate K fltMax + scoresOf l) := by
  have hne : initState K ≠ [] := by
    simp only [initState, ne_eq, List.replicate_eq_nil_iff]
    omega
  have hlen : (initState K).length = K := by simp [initState]
  have hbase : IsBottomK (initState K).length (scoresOf (initState K))
      (Multiset.replicate K fltMax) := by
    rw [← initState_scores]
    exact bottom_self _ _ (by rw [scoresOf_card])
  have h := foldPR_bottom l (initState K) (Multiset.replicate K fltMax) hne
    (headWorst_init K) hbase
  rw [hlen] at h
  exact h

theorem bottom_countP_lt (K : Nat) (H M : Multiset ℚ) (hbot : IsBottomK K H M)
    (s : ℚ) (hs : s ∈ H) :
    Multiset.countP (fun a => a < s) M < K := by
  obtain ⟨hle, hcard, hprop⟩ := hbot
  have hM : M - H + H = M := tsub_add_cancel_of_le hle
  have hzero : Multiset.countP (fun a => a < s) (M - H) = 0 := by
    rw [Multiset.countP_eq_zero]
    intro b hb
    exact not_lt.mpr (hprop s hs b hb)
  obtain ⟨H', hH'⟩ := Multiset.exists_cons_of_mem hs
  have hcard' : Multiset.card H' + 1 = K := by
    have := congrArg Multiset.card hH'
    simp only [Multiset.card_cons] at this
    omega
  have hHc : Multiset.countP (fun a => a < s) H ≤ K - 1 := by
    rw [hH', Multiset.countP_cons]
    have h1 : Multiset.countP (fun a => a < s) H' ≤ Multiset.card H' :=
      Multiset.countP_le_card _ _
    simp only [lt_irrefl, if_false]
    omega
  have hsum : Multiset.countP (fun a => a < s) M
      = Multiset.countP (fun a => a < s) (M - H) + Multiset.countP (fun a => a < s) H := by
    rw [← Multiset.countP_add, hM]
  omega

theorem two_mem_count (U : List Cand) (c p : Cand) (hc : c ∈ U) (hpm : p ∈ U)
    (hne : c ≠ p) (hs : c.2 = p.2) : 2 ≤ Multiset.count p.2 (scoresOf U) := by
  have hle : (c ::ₘ {p} : Multiset Cand) ≤ (↑U : Multiset Cand) := by
    rw [Multiset.le_iff_count]
    intro x
    rw [Multiset.count_cons, Multiset.count_singleton]
    have hcu : (c ∈ (↑U : Multiset Cand)) := by simpa using hc
    have hpu : (p ∈ (↑U : Multiset Cand)) := by simpa using hpm
    by_cases hxc : x = c
    · subst hxc
      have h1 : 1 ≤ Multiset.count x (↑U : Multiset Cand) :=
        Multiset.one_le_count_iff_mem.mpr hcu
      have hxp : ¬x = p := hne
      simp only [if_neg hxp, eq_self_iff_true, if_true]
      omega
    · by_cases hxp : x = p
      · subst hxp
        have h1 : 1 ≤ Multiset.count x (↑U : Multiset Cand) :=
          Multiset.one_le_count_iff_mem.mpr hpu
        simp only [eq_self_iff_true, if_true, if_neg (Ne.symm hne)]
        omega
      · simp only [if_neg hxp, if_neg hxc]
        omega
  have hmle := Multiset.map_le_map (f := fun d : Cand => d.2) hle
  have hcount := Multiset.count_le_of_le p.2 hmle
  rw [scoresOf_coe]
  refine le_trans ?_ hcount
  simp only [Multiset.map_cons, Multiset.map_singleton, Multiset.count_cons,
    Multiset.count_singleton, hs]
  simp

theorem count_pair_eq_count_score (T : List Cand) (p : Cand)
    (hall : ∀ c ∈ T, c.2 = p.2 → c = p) :
    Multiset.count p (↑T : Multiset Cand) = Multiset.count p.2 (scoresOf T) := by
  rw [scoresOf_coe, Multiset.count_map]
  have hfe : Multiset.filter (fun c : Cand => p.2 = c.2) (↑T : Multiset Cand)
      = Multiset.filter (fun c : Cand => p = c) (↑T : Multiset Cand) := by
    apply Multiset.filter_congr
    intro c hcT
    constructor
    · intro h
      exact (hall c (by simpa using hcT) h.symm).symm
    · intro h
      rw [← h]
  rw [hfe]
  rw [Multiset.count]
  rw [Multiset.countP_eq_card_filter]

theorem pair_det (U T1 T2 : List Cand)
    (hsc : scoresOf T1 = scoresOf T2)
    (h1a : ∀ c ∈ T1, c.2 ≤ fltMax) (h1b : ∀ c ∈ T1, c.2 = fltMax → c = padC)
    (h1c : ∀ c ∈ T1, c.2 < fltMax → c ∈ U)
    (h2a : ∀ c ∈ T2, c.2 ≤ fltMax) (h2b : ∀ c ∈ T2, c.2 = fltMax → c = padC)
    (h2c : ∀ c ∈ T2, c.2 < fltMax → c ∈ U)
    (hU : ∀ s : ℚ, s ∈ scoresOf T1 → s < fltMax → Multiset.count s (scoresOf U) ≤ 1) :
    (↑T1 : Multiset Cand) = (↑T2 : Multiset Cand) := by
  ext p
  by_cases hp : p.2 < fltMax
  · by_cases hpU : p ∈ U
    · by_cases hscore : p.2 ∈ scoresOf T1
      · have hU1 : Multiset.count p.2 (scoresOf U) ≤ 1 := hU p.2 hscore hp
        have hall1 : ∀ c ∈ T1, c.2 = p.2 → c = p := by
          intro c hcT hc2
          by_contra hne
          have hcU : c ∈ U := h1c c hcT (hc2 ▸ hp)
          exact absurd (two_mem_count U c p hcU hpU hne hc2) (by omega)
        have hall2 : ∀ c ∈ T2, c.2 = p.2 → c = p := by
          intro c hcT hc2
          by_contra hne
          have hcU : c ∈ U := h2c c hcT (hc2 ▸ hp)
          exact absurd (two_mem_count U c p hcU hpU hne hc2) (by omega)
        rw [count_pair_eq_count_score T1 p hall1, count_pair_eq_count_score T2 p hall2, hsc]
      · have h01 : Multiset.count p (↑T1 : Multiset Cand) = 0 := by
          rw [Multiset.count_eq_zero]
          intro hmem
          exact hscore (by
            rw [scoresOf_coe]
            exact Multiset.mem_map.mpr ⟨p, hmem, rfl⟩)
        have h02 : Multiset.count p (↑T2 : Multiset Cand) = 0 := by
          rw [Multiset.count_eq_zero]
          intro hmem
          have : p.2 ∈ scoresOf T2 := by
            rw [scoresOf_coe]
            exact Multiset.mem_map.mpr ⟨p, hmem, rfl⟩
          rw [← hsc] at this
          exact hscore this
        rw [h01, h02]
    · have h01 : Multiset.count p (↑T1 : Multiset Cand) = 0 := by
        rw [Multiset.count_eq_zero]
        intro hmem
        exact hpU (h1c p (by simpa using hmem) hp)
      have h02 : Multiset.count p (↑T2 : Multiset Cand) = 0 := by
        rw [Multiset.count_eq_zero]
        intro hmem
        exact hpU (h2c p (by simpa using hmem) hp)
      rw [h01, h02]
  · by_cases hpe : p.2 = fltMax
    · by_cases hpad : p = padC
      · subst hpad
        have hall1 : ∀ c ∈ T1, c.2 = padC.2 → c = padC := fun c hcT hc2 => h1b c hcT hc2
        have hall2 : ∀ c ∈ T2, c.2 = padC.2 → c = padC := fun c hcT hc2 => h2b c hcT hc2
        rw [count_pair_eq_count_score T1 padC hall1, count_pair_eq_count_score T2 padC hall2,
          hsc]
      · have h01 : Multiset.count p (↑T1 : Multiset Cand) = 0 := by
          rw [Multiset.count_eq_zero]
          intro hmem
          exact hpad (h1b p (by simpa using hmem) hpe)
        have h02 : Multiset.count p (↑T2 : Multiset Cand) = 0 := by
          rw [Multiset.count_eq_zero]
          intro hmem
          exact hpad (h2b p (by simpa using hmem) hpe)
        rw [h01, h02]
    · have h01 : Multiset.count p (↑T1 : Multiset Cand) = 0 := by
        rw [Multiset.count_eq_zero]
        intro hmem
        exact absurd (h1a p (by simpa using hmem)) (by
          intro hle
          exact hpe (le_antisymm hle (not_lt.mp hp)))
      have h02 : Multiset.count p (↑T2 : Multiset Cand) = 0 := by
        rw [Multiset.count_eq_zero]
        intro hmem
        exact absurd (h2a p (by simpa using hmem)) (by
          intro hle
          exact hpe (le_antisymm hle (not_lt.mp hp)))
      rw [h01, h02]

theorem runs_eq (K : Nat) (hK : 1 ≤ K) (U X : List Cand)
    (hXU : ∀ c ∈ X, c ∈ U ∨ c = padC)
    (hLD : lowDistinct K U)
    (hbot : ∃ m : Nat, IsBottomK K (scoresOf (runT K X))
      (Multiset.replicate (K + m) fltMax + scoresOf U)) :
    (↑(runT K X) : Multiset Cand) = (↑(runT K U) : Multiset Cand) := by
  obtain ⟨m, hbotX⟩ := hbot
  have hbotU := runT_bottom K hK U
  have hbotU' : IsBottomK K (scoresOf (runT K U))
      (Multiset.replicate (K + m) fltMax + scoresOf U) := by
    have hext := bottom_extend K (scoresOf (runT K U))
      (Multiset.replicate K fltMax + scoresOf U)
      (scoresOf (runT K U)) (Multiset.replicate m fltMax) hbotU hbotU.1
      (by rw [scoresOf_card, runT_length])
      (by
        intro b hb e he
        have hbe : b = fltMax := Multiset.eq_of_mem_replicate hb
        subst hbe
        exact runT_scores_le K U e he)
    have hre : Multiset.replicate K fltMax + scoresOf U + Multiset.replicate m fltMax
        = Multiset.replicate (K + m) fltMax + scoresOf U := by
      rw [Multiset.replicate_add]
      abel
    rw [hre] at hext
    exact hext
  have hseq : scoresOf (runT K X) = scoresOf (runT K U) :=
    bottom_unique K _ _ _ hbotX hbotU'
  apply pair_det U _ _ hseq
  · intro c hc
    rcases runT_mem K X c hc with h | ⟨_, h⟩
    · rw [h]
      exact le_refl _
    · exact le_of_lt h
  · intro c hc he
    rcases runT_mem K X c hc with h | ⟨_, h⟩
    · exact h
    · rw [he] at h
      exact absurd h (lt_irrefl _)
  · intro c hc hlt
    rcases runT_mem K X c hc with h | ⟨hX, _⟩
    · rw [h] at hlt
      exact absurd hlt (lt_irrefl _)
    · rcases hXU c hX with h | h
      · exact h
      · rw [h] at hlt
        exact absurd hlt (lt_irrefl _)
  · intro c hc
    rcases runT_mem K U c hc with h | ⟨_, h⟩
    · rw [h]
      exact le_refl _
    · exact le_of_lt h
  · intro c hc he
    rcases runT_mem K U c hc with h | ⟨_, h⟩
    · exact h
    · rw [he] at h
      exact absurd h (lt_irrefl _)
  · intro c hc hlt
    rcases runT_mem K U c hc with h | ⟨hU2, _⟩
    · rw [h] at hlt
      exact absurd hlt (lt_irrefl _)
    · exact hU2
  · intro s hsT hslt
    have hcp := bottom_countP_lt K _ _ hbotX s hsT
    have hmono : Multiset.countP (fun a => a < s) (scoresOf U)
        ≤ Multiset.countP (fun a => a < s)
            (Multiset.replicate (K + m) fltMax + scoresOf U) :=
      Multiset.countP_le_of_le _ (Multiset.le_add_left _ _)
    exact hLD s (by omega)

/-! ### Merge correctness (C4) -/

theorem scoresOf_append (l1 l2 : List Cand) :
    scoresOf (l1 ++ l2) = scoresOf l1 + scoresOf l2 := by
  simp [scoresOf]

/-- C4 fails as stated: take K = 2, first stream [(x1, 5)], second stream
[(x2, 9), (x3, 9)].  The two lowest scores of the union, 5 and 9, are
pairwise distinct, yet merging the second tracker into the first retains
(x3, 9) while the single-pass run over the concatenation retains (x2, 9):
the tie at the K-th/(K+1)-th lowest score makes the two held sets differ. -/
theorem c4_counterexample :
    scoresOf ([(([1] : List Nat), (5 : ℚ))] ++ [(([2] : List Nat), (9 : ℚ)), ([3], 9)])
      = (5 ::ₘ 9 ::ₘ {9}) ∧ (5 : ℚ) < 9 ∧
    (↑(foldPR (runT 2 [(([1] : List Nat), (5 : ℚ))])
        (runT 2 [(([2] : List Nat), (9 : ℚ)), ([3], 9)])) : Multiset Cand)
      ≠ (↑(runT 2 ([(([1] : List Nat), (5 : ℚ))]
            ++ [(([2] : List Nat), (9 : ℚ)), ([3], 9)])) : Multiset Cand) := by
  have e0 : initState 2 = [padC, padC] := rfl
  refine ⟨?_, by norm_num, ?_⟩
  · show ((([(([1] : List Nat), (5 : ℚ)), ([2], 9), ([3], 9)].map (fun c => c.2)) : List ℚ)
      : Multiset ℚ) = 5 ::ₘ 9 ::ₘ {9}
    rfl
  have hT1 : runT 2 [(([1] : List Nat), (5 : ℚ))] = [padC, ([1], 5)] := by
    simp only [runT, foldPR, List.foldl, e0]
    norm_num [processResult, firstMaxAux, swapAt0, padC, fltMax]
  have hT2 : runT 2 [(([2] : List Nat), (9 : ℚ)), ([3], 9)]
      = [([3], 9), ([2], 9)] := by
    simp only [runT, foldPR, List.foldl, e0]
    norm_num [processResult, firstMaxAux, swapAt0, padC, fltMax]
  have hmerge : foldPR [padC, (([1] : List Nat), (5 : ℚ))]
      [(([3] : List Nat), (9 : ℚ)), ([2], 9)] = [([3], 9), ([1], 5)] := by
    simp only [foldPR, List.foldl]
    norm_num [processResult, firstMaxAux, swapAt0, padC, fltMax]
  have hdirect : runT 2 ([(([1] : List Nat), (5 : ℚ))]
      ++ [(([2] : List Nat), (9 : ℚ)), ([3], 9)]) = [([2], 9), ([1], 5)] := by
    simp only [List.cons_append, List.nil_append, runT, foldPR, List.foldl, e0]
    norm_num [processResult, firstMaxAux, swapAt0, padC, fltMax]
  rw [hT1, hT2, hmerge, hdirect]
  intro heq
  have hmem : (([3] : List Nat), (9 : ℚ))
      ∈ (↑([(([3] : List Nat), (9 : ℚ)), ([1], 5)] : List Cand) : Multiset Cand) := by
    simp
  rw [heq] at hmem
  simp only [Multiset.mem_coe, List.mem_cons, List.not_mem_nil, or_false] at hmem
  rcases hmem with h | h
  · have := congrArg Prod.fst h
    simp at this
  · have := congrArg Prod.snd h
    norm_num at this

/-- C4 amended: the claim holds when the distinctness hypothesis covers the
K+1 lowest scores of the union (equivalently: no score with fewer than K
strictly smaller union scores occurs twice).  Under that hypothesis, feeding
every slot held by the second tracker through observe on the first yields
exactly the held multiset of a single fresh tracker run over the
concatenated stream — for every pair of streams and every K ≥ 1, which in
particular covers K = 2 with the four lowest union scores pairwise
distinct. -/
theorem c4_amended (K : Nat) (hK : 1 ≤ K) (L1 L2 : List Cand)
    (hLD : lowDistinct K (L1 ++ L2)) :
    (↑(foldPR (runT K L1) (runT K L2)) : Multiset Cand)
      = (↑(runT K (L1 ++ L2)) : Multiset Cand) := by
  have hXdef : foldPR (runT K L1) (runT K L2) = runT K (L1 ++ runT K L2) := by
    unfold runT foldPR
    rw [List.foldl_append]
  rw [hXdef]
  apply runs_eq K hK (L1 ++ L2) (L1 ++ runT K L2)
  · intro c hc
    rcases List.mem_append.mp hc with h | h
    · exact Or.inl (List.mem_append.mpr (Or.inl h))
    · rcases runT_mem K L2 c h with h2 | ⟨h2, _⟩
      · exact Or.inr h2
      · exact Or.inl (List.mem_append.mpr (Or.inr h2))
  · exact hLD
  · refine ⟨K, ?_⟩
    have hsX : scoresOf (L1 ++ runT K L2) = scoresOf L1 + scoresOf (runT K L2) :=
      scoresOf_append _ _
    obtain ⟨D2, hD2eq, hD2b⟩ := runT_dropped K hK L2
    have hbotX := runT_bottom K hK (L1 ++ runT K L2)
    have hS : scoresOf (runT K L2)
        ≤ Multiset.replicate K fltMax + scoresOf (L1 ++ runT K L2) := by
      rw [hsX]
      calc scoresOf (runT K L2) ≤ scoresOf L1 + scoresOf (runT K L2) :=
            Multiset.le_add_left _ _
        _ ≤ Multiset.replicate K fltMax + (scoresOf L1 + scoresOf (runT K L2)) :=
            Multiset.le_add_left _ _
    have hext := bottom_extend K _ _ (scoresOf (runT K L2)) D2 hbotX hS
      (by rw [scoresOf_card, runT_length]) (fun b hb e he => hD2b b hb e he)
    have hre : Multiset.replicate K fltMax + scoresOf (L1 ++ runT K L2) + D2
        = Multiset.replicate (K + K) fltMax + scoresOf (L1 ++ L2) := by
      rw [hsX, scoresOf_append L1 L2, Multiset.replicate_add]
      calc Multiset.replicate K fltMax + (scoresOf L1 + scoresOf (runT K L2)) + D2
          = Multiset.replicate K fltMax + scoresOf L1
            + (scoresOf (runT K L2) + D2) := by abel
        _ = Multiset.replicate K fltMax + scoresOf L1
            + (Multiset.replicate K fltMax + scoresOf L2) := by rw [← hD2eq]
        _ = Multiset.replicate K fltMax + Multiset.replicate K fltMax
            + (scoresOf L1 + scoresOf L2) := by abel
    rw [hre] at hext
    exact hext

theorem c4_amended_witness :
    (↑(foldPR (runT 1 [(([1] : List Nat), (3 : ℚ))]) (runT 1 [])) : Multiset Cand)
      = (↑(runT 1 ([(([1] : List Nat), (3 : ℚ))] ++ [])) : Multiset Cand) :=
  c4_amended 1 (by norm_num) [([1], 3)] [] (by
    intro s _
    have hsc : scoresOf ([(([1] : List Nat), (3 : ℚ))] ++ []) = {3} := by
      simp [scoresOf]
    rw [hsc]
    by_cases h3 : s = 3
    · subst h3
      simp
    · rw [Multiset.count_singleton, if_neg h3]
      omega)

/-! ### The single-precision model: exactness, error and monotonicity (C5) -/

theorem lg2go_spec :
    ∀ (fuel n : Nat), 1 ≤ n → n < 2 ^ fuel →
      2 ^ lg2go fuel n ≤ n ∧ n < 2 ^ (lg2go fuel n + 1) := by
  intro fuel
  induction fuel with
  | zero =>
    intro n h1 h2
    simp at h2
    omega
  | succ f ih =>
    intro n h1 h2
    by_cases hn : n < 2
    · simp only [lg2go, if_pos hn]
      constructor
      · simpa using h1
      · simpa using hn
    · simp only [lg2go, if_neg hn]
      have hdm := Nat.div_add_mod n 2
      have hmod : n % 2 < 2 := Nat.mod_lt _ (by norm_num)
      have h1' : 1 ≤ n / 2 := by omega
      have h2' : n / 2 < 2 ^ f := by
        rw [pow_succ] at h2
        omega
      obtain ⟨ha, hb⟩ := ih (n / 2) h1' h2'
      constructor
      · rw [pow_succ]
        omega
      · have hb' : n / 2 < 2 ^ lg2go f (n / 2) * 2 := by
          rw [pow_succ] at hb
          exact hb
        rw [pow_succ, pow_succ]
        omega

theorem floorLog2_spec (q : ℚ) (h1 : 1 ≤ q) (h2 : q < 2 ^ 100) :
    (2 : ℚ) ^ floorLog2 q ≤ q ∧ q < 2 ^ (floorLog2 q + 1) := by
  set n := (⌊q⌋).toNat with hn
  have hfl0 : (0 : ℤ) ≤ ⌊q⌋ := by
    rw [Int.le_floor]
    exact le_trans (by norm_num) h1
  have hfl1 : (1 : ℤ) ≤ ⌊q⌋ := by
    rw [Int.le_floor]
    exact_mod_cast h1
  have hcast : ((n : ℤ) : ℚ) = ((⌊q⌋ : ℤ) : ℚ) := by
    rw [hn, Int.toNat_of_nonneg hfl0]
  have hnq : (n : ℚ) ≤ q := by
    calc (n : ℚ) = ((⌊q⌋ : ℤ) : ℚ) := by exact_mod_cast hcast
      _ ≤ q := Int.floor_le q
  have hqn : q < (n : ℚ) + 1 := by
    calc q < ((⌊q⌋ : ℤ) : ℚ) + 1 := Int.lt_floor_add_one q
      _ = (n : ℚ) + 1 := by
        rw [← hcast]
        push_cast
        ring
  have hn1 : 1 ≤ n := by
    rw [hn]
    omega
  have hn2 : n < 2 ^ 128 := by
    by_contra hcon
    push_neg at hcon
    have : (2 : ℚ) ^ 128 ≤ (n : ℚ) := by exact_mod_cast Nat.cast_le.mpr hcon
    have h100 : (2 : ℚ) ^ 100 < 2 ^ 128 := by norm_num
    linarith
  obtain ⟨ha, hb⟩ := lg2go_spec 128 n hn1 hn2
  have hfl : floorLog2 q = lg2go 128 n := rfl
  rw [hfl]
  constructor
  · calc (2 : ℚ) ^ lg2go 128 n = ((2 ^ lg2go 128 n : Nat) : ℚ) := by push_cast; ring
      _ ≤ (n : ℚ) := by exact_mod_cast ha
      _ ≤ q := hnq
  · calc q < (n : ℚ) + 1 := hqn
      _ ≤ ((2 ^ (lg2go 128 n + 1) : Nat) : ℚ) := by exact_mod_cast hb
      _ = (2 : ℚ) ^ (lg2go 128 n + 1) := by push_cast; ring

theorem rhe_bounds (x : ℚ) : x - 1 / 2 ≤ (rhe x : ℚ) ∧ (rhe x : ℚ) ≤ x + 1 / 2 := by
  have hfl : ((⌊x⌋ : ℤ) : ℚ) ≤ x := Int.floor_le x
  have hfu : x < ((⌊x⌋ : ℤ) : ℚ) + 1 := Int.lt_floor_add_one x
  unfold rhe
  by_cases h1 : x - ⌊x⌋ < 1 / 2
  · rw [if_pos h1]
    constructor <;> push_cast <;> linarith
  · rw [if_neg h1]
    push_neg at h1
    by_cases h2 : 1 / 2 < x - ⌊x⌋
    · rw [if_pos h2]
      constructor <;> push_cast <;> linarith
    · rw [if_neg h2]
      push_neg at h2
      by_cases h3 : 2 ∣ ⌊x⌋
      · rw [if_pos h3]
        constructor <;> push_cast <;> linarith
      · rw [if_neg h3]
        constructor <;> push_cast <;> linarith

theorem rhe_intCast (m : ℤ) : rhe ((m : ℤ) : ℚ) = m := by
  unfold rhe
  rw [Int.floor_intCast]
  rw [if_pos]
  rw [sub_self]
  norm_num

theorem rhe_mono (x y : ℚ) (hxy : x ≤ y) : rhe x ≤ rhe y := by
  by_contra hc
  push_neg at hc
  have h1 : (rhe y : ℤ) + 1 ≤ rhe x := by omega
  have h1' : ((rhe y : ℤ) : ℚ) + 1 ≤ ((rhe x : ℤ) : ℚ) := by exact_mod_cast h1
  obtain ⟨hx1, hx2⟩ := rhe_bounds x
  obtain ⟨hy1, hy2⟩ := rhe_bounds y
  have hyx : y ≤ x := by linarith
  have hxey : x = y := le_antisymm hxy hyx
  subst hxey
  omega

theorem roundQ_pos_form (q : ℚ) (h1 : 1 ≤ q) :
    roundQ q = (rhe (q * 2 ^ 23 / 2 ^ floorLog2 q) : ℚ) * 2 ^ floorLog2 q / 2 ^ 23 := by
  rw [roundQ, if_neg (not_lt.mpr h1)]

theorem roundQ_scaled_facts (q : ℚ) (h1 : 1 ≤ q) (h2 : q < 2 ^ 100) :
    (2 : ℚ) ^ 23 ≤ q * 2 ^ 23 / 2 ^ floorLog2 q ∧
    q * 2 ^ 23 / 2 ^ floorLog2 q < 2 ^ 24 ∧
    q = (q * 2 ^ 23 / 2 ^ floorLog2 q) * 2 ^ floorLog2 q / 2 ^ 23 := by
  obtain ⟨he1, he2⟩ := floorLog2_spec q h1 h2
  have hE : (0 : ℚ) < 2 ^ floorLog2 q := by positivity
  refine ⟨?_, ?_, ?_⟩
  · rw [le_div_iff hE]
    calc (2 : ℚ) ^ 23 * 2 ^ floorLog2 q ≤ 2 ^ 23 * q := by
          apply mul_le_mul_of_nonneg_left he1 (by positivity)
      _ = q * 2 ^ 23 := by ring
  · rw [div_lt_iff hE]
    calc q * 2 ^ 23 < 2 ^ (floorLog2 q + 1) * 2 ^ 23 := by
          apply mul_lt_mul_of_pos_right he2 (by positivity)
      _ = 2 ^ 24 * 2 ^ floorLog2 q := by ring
  · field_simp

theorem roundQ_err (q : ℚ) (h1 : 1 ≤ q) (h2 : q < 2 ^ 100) :
    q - q / 2 ^ 24 ≤ roundQ q ∧ roundQ q ≤ q + q / 2 ^ 24 := by
  obtain ⟨hs1, hs2, hq_eq⟩ := roundQ_scaled_facts q h1 h2
  set e := floorLog2 q
  set s := q * 2 ^ 23 / 2 ^ e with hsdef
  obtain ⟨hr1, hr2⟩ := rhe_bounds s
  rw [roundQ_pos_form q h1]
  have hE : (0 : ℚ) < 2 ^ e := by positivity
  have hhalf : (1 : ℚ) / 2 ≤ s / 2 ^ 24 := by
    rw [div_le_div_iff (by norm_num) (by norm_num)]
    calc (1 : ℚ) * 2 ^ 24 = 2 * 2 ^ 23 := by norm_num
      _ ≤ 2 * s := by linarith
      _ = s * 2 := by ring
  constructor
  · have key : s - s / 2 ^ 24 ≤ (rhe s : ℚ) := by linarith
    calc q - q / 2 ^ 24 = (s - s / 2 ^ 24) * 2 ^ e / 2 ^ 23 := by
          rw [hq_eq]
          ring
      _ ≤ (rhe s : ℚ) * 2 ^ e / 2 ^ 23 := by gcongr
  · have key : (rhe s : ℚ) ≤ s + s / 2 ^ 24 := by linarith
    calc (rhe s : ℚ) * 2 ^ e / 2 ^ 23 ≤ (s + s / 2 ^ 24) * 2 ^ e / 2 ^ 23 := by gcongr
      _ = q + q / 2 ^ 24 := by
          rw [hq_eq]
          ring

theorem roundQ_lower_upper (q : ℚ) (h1 : 1 ≤ q) (h2 : q < 2 ^ 100) :
    (2 : ℚ) ^ floorLog2 q ≤ roundQ q ∧ roundQ q ≤ 2 ^ (floorLog2 q + 1) := by
  obtain ⟨hs1, hs2, hq_eq⟩ := roundQ_scaled_facts q h1 h2
  set e := floorLog2 q
  set s := q * 2 ^ 23 / 2 ^ e with hsdef
  obtain ⟨hr1, hr2⟩ := rhe_bounds s
  rw [roundQ_pos_form q h1]
  have hE : (0 : ℚ) < 2 ^ e := by positivity
  have hRlo : (2 ^ 23 : ℤ) ≤ rhe s := by
    have hq1 : ((2 ^ 23 : ℤ) : ℚ) - 1 < (rhe s : ℚ) := by push_cast; linarith
    have := Int.lt_iff_add_one_le.mp (by exact_mod_cast hq1 : (2 ^ 23 : ℤ) - 1 < rhe s)
    omega
  have hRhi : rhe s ≤ (2 ^ 24 : ℤ) := by
    have hq1 : (rhe s : ℚ) < ((2 ^ 24 : ℤ) : ℚ) + 1 := by push_cast; linarith
    have := Int.lt_iff_add_one_le.mp (by exact_mod_cast hq1 : rhe s < (2 ^ 24 : ℤ) + 1)
    omega
  constructor
  · have h1' : ((2 ^ 23 : ℤ) : ℚ) ≤ (rhe s : ℚ) := by exact_mod_cast hRlo
    calc (2 : ℚ) ^ e = (2 ^ 23 : ℚ) * 2 ^ e / 2 ^ 23 := by ring
      _ ≤ (rhe s : ℚ) * 2 ^ e / 2 ^ 23 := by
          have : ((2 ^ 23 : ℤ) : ℚ) = (2 ^ 23 : ℚ) := by push_cast; ring
          rw [← this]
          gcongr
  · have h1' : (rhe s : ℚ) ≤ ((2 ^ 24 : ℤ) : ℚ) := by exact_mod_cast hRhi
    calc (rhe s : ℚ) * 2 ^ e / 2 ^ 23 ≤ ((2 ^ 24 : ℤ) : ℚ) * 2 ^ e / 2 ^ 23 := by gcongr
      _ = 2 ^ (e + 1) := by
          push_cast
          rw [pow_succ]
          ring

theorem roundQ_exact (m k : Nat) (hm1 : 1 ≤ m) (hm2 : m < 2 ^ 24) (hk : k ≤ 60) :
    roundQ ((m : ℚ) * 2 ^ k) = (m : ℚ) * 2 ^ k := by
  set q : ℚ := (m : ℚ) * 2 ^ k with hq
  have hm1' : (1 : ℚ) ≤ (m : ℚ) := by exact_mod_cast hm1
  have hkpos : (0 : ℚ) < 2 ^ k := by positivity
  have hk1 : (1 : ℚ) ≤ 2 ^ k := by
    calc (1 : ℚ) = 1 ^ k := (one_pow k).symm
      _ ≤ 2 ^ k := by gcongr <;> norm_num
  have h1 : 1 ≤ q := by
    rw [hq]
    nlinarith
  have h2 : q < 2 ^ 100 := by
    rw [hq]
    have hm2' : (m : ℚ) < 2 ^ 24 := by exact_mod_cast hm2
    have hk' : (2 : ℚ) ^ k ≤ 2 ^ 60 := by
      apply pow_le_pow_right (by norm_num) hk
    calc (m : ℚ) * 2 ^ k < 2 ^ 24 * 2 ^ k := by nlinarith
      _ ≤ 2 ^ 24 * 2 ^ 60 := by nlinarith
      _ < 2 ^ 100 := by norm_num
  obtain ⟨he1, he2⟩ := floorLog2_spec q h1 h2
  set e := floorLog2 q with he
  have hek : e ≤ k + 23 := by
    by_contra hcon
    push_neg at hcon
    have hpow : (2 : ℚ) ^ (k + 24) ≤ 2 ^ e := by
      apply pow_le_pow_right (by norm_num)
      omega
    have hq24 : q < 2 ^ (k + 24) := by
      rw [hq, pow_add]
      have hm2' : (m : ℚ) < 2 ^ 24 := by exact_mod_cast hm2
      calc (m : ℚ) * 2 ^ k < 2 ^ 24 * 2 ^ k := by nlinarith
        _ = 2 ^ k * 2 ^ 24 := by ring
    linarith
  have hsplit : (2 : ℚ) ^ (k + 23) = 2 ^ (k + 23 - e) * 2 ^ e := by
    rw [← pow_add]
    congr 1
    omega
  have hE : (0 : ℚ) < 2 ^ e := by positivity
  have hs_int : q * 2 ^ 23 / 2 ^ e = ((m * 2 ^ (k + 23 - e) : Nat) : ℚ) := by
    rw [hq]
    push_cast
    rw [div_eq_iff (ne_of_gt hE)]
    calc (m : ℚ) * 2 ^ k * 2 ^ 23 = (m : ℚ) * 2 ^ (k + 23) := by
          rw [pow_add]
          ring
      _ = (m : ℚ) * (2 ^ (k + 23 - e) * 2 ^ e) := by rw [hsplit]
      _ = (m : ℚ) * 2 ^ (k + 23 - e) * 2 ^ e := by ring
  rw [roundQ_pos_form q h1, ← he, hs_int]
  have hrhe : rhe ((m * 2 ^ (k + 23 - e) : Nat) : ℚ) = ((m * 2 ^ (k + 23 - e) : Nat) : ℤ) := by
    have h := rhe_intCast ((m * 2 ^ (k + 23 - e) : Nat) : ℤ)
    have hcast : (((m * 2 ^ (k + 23 - e) : Nat) : ℤ) : ℚ)
        = ((m * 2 ^ (k + 23 - e) : Nat) : ℚ) := by
      push_cast
      ring
    rw [hcast] at h
    exact h
  rw [hrhe]
  push_cast
  rw [div_eq_iff (by positivity : ((2 : ℚ) ^ 23) ≠ 0)]
  calc (m : ℚ) * 2 ^ (k + 23 - e) * 2 ^ e = (m : ℚ) * (2 ^ (k + 23 - e) * 2 ^ e) := by ring
    _ = (m : ℚ) * 2 ^ (k + 23) := by rw [← hsplit]
    _ = (m : ℚ) * 2 ^ k * 2 ^ 23 := by
        rw [pow_add]
        ring

theorem roundQ_mono (q q' : ℚ) (h1 : 1 ≤ q) (h2 : q < 2 ^ 100) (h1' : 1 ≤ q')
    (h2' : q' < 2 ^ 100) (hqq : q ≤ q') : roundQ q ≤ roundQ q' := by
  have hee : floorLog2 q ≤ floorLog2 q' := by
    by_contra hcon
    push_neg at hcon
    obtain ⟨hA, hB⟩ := floorLog2_spec q h1 h2
    obtain ⟨hA', hB'⟩ := floorLog2_spec q' h1' h2'
    have hpw : (2 : ℚ) ^ (floorLog2 q' + 1) ≤ 2 ^ floorLog2 q :=
      pow_le_pow_right (by norm_num) (by omega)
    linarith
  by_cases heq : floorLog2 q = floorLog2 q'
  · rw [roundQ_pos_form q h1, roundQ_pos_form q' h1', heq]
    have hE : (0 : ℚ) < 2 ^ floorLog2 q' := by positivity
    have hs : q * 2 ^ 23 / 2 ^ floorLog2 q' ≤ q' * 2 ^ 23 / 2 ^ floorLog2 q' := by gcongr
    have hr := rhe_mono _ _ hs
    have hrq : ((rhe (q * 2 ^ 23 / 2 ^ floorLog2 q') : ℤ) : ℚ)
        ≤ ((rhe (q' * 2 ^ 23 / 2 ^ floorLog2 q') : ℤ) : ℚ) := by exact_mod_cast hr
    gcongr
  · have hlt : floorLog2 q < floorLog2 q' := lt_of_le_of_ne hee heq
    obtain ⟨_, hup⟩ := roundQ_lower_upper q h1 h2
    obtain ⟨hlo, _⟩ := roundQ_lower_upper q' h1' h2'
    calc roundQ q ≤ 2 ^ (floorLog2 q + 1) := hup
      _ ≤ 2 ^ floorLog2 q' := pow_le_pow_right (by norm_num) (by omega)
      _ ≤ roundQ q' := hlo

theorem sEnd_cast : ((sEnd : Nat) : ℚ) = ((127 : Nat) : ℚ) * 2 ^ 23 := by
  norm_num [sEnd]

theorem roundQ_sEnd : roundQ ((sEnd : Nat) : ℚ) = ((sEnd : Nat) : ℚ) := by
  rw [sEnd_cast]
  exact roundQ_exact 127 23 (by norm_num) (by norm_num) (by norm_num)

theorem roundQ_natCast (n : Nat) (h1 : 1 ≤ n) (h2 : n < 2 ^ 24) :
    roundQ ((n : Nat) : ℚ) = ((n : Nat) : ℚ) := by
  have h := roundQ_exact n 0 h1 h2 (by norm_num)
  simpa using h

theorem pB_eq (N i : Nat) (hi1 : 1 ≤ i) (hiN : i ≤ N) (hN : N ≤ 65536) :
    partitionBound N i = (⌊roundQ ((sEnd : ℚ) * (i : ℚ) / (N : ℚ))⌋).toNat := by
  unfold partitionBound
  have hri : roundQ ((i : Nat) : ℚ) = ((i : Nat) : ℚ) :=
    roundQ_natCast i hi1 (by omega)
  have hrN : roundQ ((N : Nat) : ℚ) = ((N : Nat) : ℚ) :=
    roundQ_natCast N (by omega) (by omega)
  have hcast : (sEnd : ℚ) * (i : ℚ) = ((127 * i : Nat) : ℚ) * 2 ^ 23 := by
    push_cast
    norm_num [sEnd]
    ring
  have hprod : roundQ ((sEnd : ℚ) * (i : ℚ)) = (sEnd : ℚ) * (i : ℚ) := by
    rw [hcast]
    exact roundQ_exact (127 * i) 23 (by omega) (by omega) (by norm_num)
  rw [roundQ_sEnd, hri, hrN, hprod]

theorem pB_zero (N : Nat) : partitionBound N 0 = 0 := by
  unfold partitionBound
  have hr0 : roundQ ((0 : Nat) : ℚ) = 0 := by
    rw [roundQ, if_pos (by norm_num)]
    norm_num
  rw [hr0, mul_zero]
  have hr0' : roundQ (0 : ℚ) = 0 := by
    rw [roundQ, if_pos (by norm_num)]
  rw [hr0', zero_div, hr0']
  norm_num

theorem pBQ_bounds (N i : Nat) (hi1 : 1 ≤ i) (hiN : i ≤ N) (hN1 : 1 ≤ N)
    (hN : N ≤ 65536) :
    1 ≤ (sEnd : ℚ) * (i : ℚ) / (N : ℚ) ∧
    (sEnd : ℚ) * (i : ℚ) / (N : ℚ) ≤ (sEnd : ℚ) ∧
    (sEnd : ℚ) * (i : ℚ) / (N : ℚ) < 2 ^ 100 := by
  have hNpos : (0 : ℚ) < (N : ℚ) := by exact_mod_cast hN1
  have hi1' : (1 : ℚ) ≤ (i : ℚ) := by exact_mod_cast hi1
  have hiN' : (i : ℚ) ≤ (N : ℚ) := by exact_mod_cast hiN
  have hNQ : (N : ℚ) ≤ 65536 := by exact_mod_cast hN
  have hsE : (sEnd : ℚ) = 1065353216 := by norm_num [sEnd]
  refine ⟨?_, ?_, ?_⟩
  · rw [le_div_iff hNpos]
    rw [hsE]
    nlinarith
  · rw [div_le_iff hNpos]
    rw [hsE]
    nlinarith
  · have h2 : (sEnd : ℚ) * (i : ℚ) / (N : ℚ) ≤ (sEnd : ℚ) := by
      rw [div_le_iff hNpos, hsE]
      nlinarith
    rw [hsE] at h2 ⊢
    calc (1065353216 : ℚ) * (i : ℚ) / (N : ℚ) ≤ 1065353216 := h2
      _ < 2 ^ 100 := by norm_num

theorem pB_N_total (N : Nat) (hN1 : 1 ≤ N) (hN : N ≤ 65536) :
    partitionBound N N = sEnd := by
  rw [pB_eq N N hN1 (le_refl N) hN]
  have hNpos : ((N : Nat) : ℚ) ≠ 0 := by
    have : (0 : ℚ) < (N : ℚ) := by exact_mod_cast hN1
    exact ne_of_gt this
  have hq : (sEnd : ℚ) * (N : ℚ) / (N : ℚ) = ((sEnd : Nat) : ℚ) := by
    field_simp
  rw [hq, roundQ_sEnd, Int.floor_natCast]
  simp

theorem one_le_two_pow_q (e : Nat) : (1 : ℚ) ≤ 2 ^ e := by
  calc (1 : ℚ) = 1 ^ e := (one_pow e).symm
    _ ≤ 2 ^ e := by gcongr <;> norm_num

theorem pB_strict (N i : Nat) (hN1 : 1 ≤ N) (hN : N ≤ 65536) (hiN : i < N) :
    partitionBound N i < partitionBound N (i + 1) := by
  rcases Nat.eq_zero_or_pos i with h0 | hpos
  · subst h0
    rw [pB_zero]
    rw [pB_eq N 1 (le_refl 1) (by omega) hN]
    obtain ⟨hq1, hqE, hq100⟩ := pBQ_bounds N 1 (le_refl 1) (by omega) hN1 hN
    obtain ⟨hlo, _⟩ :=
      roundQ_lower_upper ((sEnd : ℚ) * ((1 : Nat) : ℚ) / (N : ℚ)) hq1 hq100
    have hQ1 : (1 : ℚ) ≤ roundQ ((sEnd : ℚ) * ((1 : Nat) : ℚ) / (N : ℚ)) :=
      le_trans (one_le_two_pow_q _) hlo
    have hfl : (1 : ℤ) ≤ ⌊roundQ ((sEnd : ℚ) * ((1 : Nat) : ℚ) / (N : ℚ))⌋ := by
      rw [Int.le_floor]
      exact_mod_cast hQ1
    omega
  · rw [pB_eq N i hpos (le_of_lt hiN) hN, pB_eq N (i + 1) (by omega) (by omega) hN]
    obtain ⟨hi1, hiE, hi100⟩ := pBQ_bounds N i hpos (le_of_lt hiN) hN1 hN
    obtain ⟨hj1, hjE, hj100⟩ := pBQ_bounds N (i + 1) (by omega) (by omega) hN1 hN
    obtain ⟨hie1, hie2⟩ := roundQ_err ((sEnd : ℚ) * ((i : Nat) : ℚ) / (N : ℚ)) hi1 hi100
    obtain ⟨hje1, hje2⟩ :=
      roundQ_err ((sEnd : ℚ) * (((i + 1 : Nat)) : ℚ) / (N : ℚ)) hj1 hj100
    have hNpos : (0 : ℚ) < (N : ℚ) := by exact_mod_cast hN1
    have hsE : ((sEnd : Nat) : ℚ) = 1065353216 := by norm_num [sEnd]
    have hdiff : (sEnd : ℚ) * (((i + 1 : Nat)) : ℚ) / (N : ℚ)
        - (sEnd : ℚ) * ((i : Nat) : ℚ) / (N : ℚ) = (sEnd : ℚ) / (N : ℚ) := by
      push_cast
      field_simp
      ring
    have hgap : (16256 : ℚ) ≤ (sEnd : ℚ) / (N : ℚ) := by
      rw [le_div_iff hNpos, hsE]
      have hNQ : (N : ℚ) ≤ 65536 := by exact_mod_cast hN
      nlinarith
    have hibd : (sEnd : ℚ) * ((i : Nat) : ℚ) / (N : ℚ) / 2 ^ 24 ≤ 64 := by
      rw [div_le_iff (by norm_num : (0 : ℚ) < 2 ^ 24)]
      linarith [hsE, hiE]
    have hjbd : (sEnd : ℚ) * (((i + 1 : Nat)) : ℚ) / (N : ℚ) / 2 ^ 24 ≤ 64 := by
      rw [div_le_iff (by norm_num : (0 : ℚ) < 2 ^ 24)]
      linarith [hsE, hjE]
    have hsep : roundQ ((sEnd : ℚ) * ((i : Nat) : ℚ) / (N : ℚ)) + 2
        ≤ roundQ ((sEnd : ℚ) * (((i + 1 : Nat)) : ℚ) / (N : ℚ)) := by
      linarith
    have hge0 : (0 : ℤ) ≤ ⌊roundQ ((sEnd : ℚ) * ((i : Nat) : ℚ) / (N : ℚ))⌋ := by
      rw [Int.le_floor]
      have hd : (sEnd : ℚ) * ((i : Nat) : ℚ) / (N : ℚ) / 2 ^ 24
          ≤ (sEnd : ℚ) * ((i : Nat) : ℚ) / (N : ℚ) :=
        div_le_self (by linarith) (by norm_num)
      push_cast
      linarith
    have hfl : ⌊roundQ ((sEnd : ℚ) * ((i : Nat) : ℚ) / (N : ℚ))⌋ + 2
        ≤ ⌊roundQ ((sEnd : ℚ) * (((i + 1 : Nat)) : ℚ) / (N : ℚ))⌋ := by
      rw [Int.le_floor]
      have h1 : (⌊roundQ ((sEnd : ℚ) * ((i : Nat) : ℚ) / (N : ℚ))⌋ : ℚ)
          ≤ roundQ ((sEnd : ℚ) * ((i : Nat) : ℚ) / (N : ℚ)) := Int.floor_le _
      have h2 : ((⌊roundQ ((sEnd : ℚ) * ((i : Nat) : ℚ) / (N : ℚ))⌋ + 2 : ℤ) : ℚ)
          = (⌊roundQ ((sEnd : ℚ) * ((i : Nat) : ℚ) / (N : ℚ))⌋ : ℚ) + 2 := by
        push_cast
        ring
      rw [h2]
      linarith
    omega

theorem pB_mono (N : Nat) (hN1 : 1 ≤ N) (hN : N ≤ 65536) :
    ∀ i j : Nat, i ≤ j → j ≤ N → partitionBound N i ≤ partitionBound N j := by
  intro i j hij hjN
  induction j, hij using Nat.le_induction with
  | base => exact le_refl _
  | succ j hij ih =>
    have h1 := ih (by omega)
    have h2 := pB_strict N j hN1 hN (by omega)
    omega

/-- C5 amended: for every worker count N with 1 ≤ N ≤ 2^16 — covering every
realistic hardware thread count — the N sub-ranges
[boundary(i), boundary(i+1)) are contiguous half-open ranges that tile the
integer-encoded domain [0, encode(1.0f)) exactly: the first boundary is 0,
the last is encode(1.0f), boundaries grow strictly (every sub-range is
non-empty, and N = 1 yields the full domain as the single sub-range), and
every encoded point below encode(1.0f) lies in exactly one sub-range.  The
boundaries themselves are uint32(float(s_end) * float(i) / float(N)) in
single-precision arithmetic, which in general differs from
round(domain_size * i / N) (see the counterexample), and for very large N
(beyond 2^16, where float(i) and the products lose integer precision) the
tiling itself can degrade. -/
theorem c5_amended (N : Nat) (hN1 : 1 ≤ N) (hN2 : N ≤ 65536) :
    partitionBound N 0 = 0 ∧
    partitionBound N N = sEnd ∧
    (∀ i, i < N → partitionBound N i < partitionBound N (i + 1)) ∧
    (∀ u, u < sEnd →
      ∃! i, i < N ∧ partitionBound N i ≤ u ∧ u < partitionBound N (i + 1)) := by
  refine ⟨pB_zero N, pB_N_total N hN1 hN2, fun i hi => pB_strict N i hN1 hN2 hi, ?_⟩
  intro u hu
  have hP0 : partitionBound N 0 ≤ u := by
    rw [pB_zero]
    omega
  obtain ⟨i0, hi0N, hPi0, hgr⟩ :
      ∃ i0, i0 ≤ N ∧ partitionBound N i0 ≤ u ∧
        ∀ k, i0 < k → k ≤ N → ¬partitionBound N k ≤ u :=
    ⟨Nat.findGreatest (fun i => partitionBound N i ≤ u) N,
      Nat.findGreatest_le N,
      Nat.findGreatest_spec (P := fun i => partitionBound N i ≤ u) (Nat.zero_le N) hP0,
      fun _ hk hkN =>
        Nat.findGreatest_is_greatest (P := fun i => partitionBound N i ≤ u) hk hkN⟩
  have hi0lt : i0 < N := by
    rcases eq_or_lt_of_le hi0N with he | h
    · exfalso
      rw [he, pB_N_total N hN1 hN2] at hPi0
      omega
    · exact h
  have hnext : ¬partitionBound N (i0 + 1) ≤ u := hgr (i0 + 1) (by omega) (by omega)
  refine ⟨i0, ⟨hi0lt, hPi0, by omega⟩, ?_⟩
  rintro j ⟨hjN, hj1, hj2⟩
  by_contra hne
  rcases lt_or_gt_of_ne hne with hlt | hgt
  · have hmono := pB_mono N hN1 hN2 (j + 1) i0 (by omega) (by omega)
    omega
  · exact hgr j hgt (by omega) hj1

theorem c5_amended_witness :
    partitionBound 1 0 = 0 ∧
    partitionBound 1 1 = sEnd ∧
    (∀ i, i < 1 → partitionBound 1 i < partitionBound 1 (i + 1)) ∧
    (∀ u, u < sEnd →
      ∃! i, i < 1 ∧ partitionBound 1 i ≤ u ∧ u < partitionBound 1 (i + 1)) :=
  c5_amended 1 (by norm_num) (by norm_num)

theorem flr (q : ℚ) (n : ℤ) (h1 : (n : ℚ) ≤ q) (h2 : q < n + 1) : ⌊q⌋ = n :=
  Int.floor_eq_iff.mpr ⟨h1, h2⟩

/-- C5 counterexample: the claim says each boundary is
round(domain_size * i / numThreads) with round-to-nearest on the exact
rational.  With numThreads = 3 and i = 1 the program computes the chain in
single precision, uint32(float(s_end) * float(1) / float(3)) = 355117728,
while round(1065353216 * 1 / 3) = round(355117738.67) = 355117739; the two
disagree (by 11), so the boundaries are not the rounded exact rationals. -/
theorem c5_counterexample :
    partitionBound 3 1 = 355117728 ∧
    round ((sEnd : ℚ) * 1 / 3) = 355117739 ∧
    (partitionBound 3 1 : ℤ) ≠ round ((sEnd : ℚ) * 1 / 3) := by
  have hsE : ((sEnd : Nat) : ℚ) = 1065353216 := by norm_num [sEnd]
  have hf1 : ⌊(1065353216 / 3 : ℚ)⌋ = 355117738 := flr _ _ (by norm_num) (by norm_num)
  have hfl2 : floorLog2 (1065353216 / 3 : ℚ) = 28 := by
    unfold floorLog2
    rw [hf1]
    decide
  have hs : (1065353216 / 3 : ℚ) * 2 ^ 23 / 2 ^ 28 = 33292288 / 3 := by norm_num
  have hf2 : ⌊(33292288 / 3 : ℚ)⌋ = 11097429 := flr _ _ (by norm_num) (by norm_num)
  have hrhe : rhe (33292288 / 3 : ℚ) = 11097429 := by
    simp only [rhe]
    rw [hf2]
    norm_num
  have hround : roundQ (1065353216 / 3 : ℚ) = 355117728 := by
    rw [roundQ_pos_form _ (by norm_num), hfl2, hs, hrhe]
    norm_num
  have hQ : ((sEnd : Nat) : ℚ) * ((1 : Nat) : ℚ) / ((3 : Nat) : ℚ) = 1065353216 / 3 := by
    rw [hsE]
    norm_num
  have hc1 : partitionBound 3 1 = 355117728 := by
    rw [pB_eq 3 1 (by norm_num) (by norm_num) (by norm_num), hQ, hround]
    rw [show (355117728 : ℚ) = ((355117728 : ℤ) : ℚ) by norm_num, Int.floor_intCast]
    rfl
  have hc2 : round ((sEnd : ℚ) * 1 / 3) = 355117739 := by
    have hQ2 : ((sEnd : Nat) : ℚ) * 1 / 3 = 1065353216 / 3 := by
      rw [hsE]
      norm_num
    rw [hQ2, round_eq]
    have h12 : (1065353216 / 3 : ℚ) + 1 / 2 = 2130706435 / 6 := by norm_num
    rw [h12]
    exact flr _ _ (by norm_num) (by norm_num)
  refine ⟨hc1, hc2, ?_⟩
  rw [hc1, hc2]
  decide

theorem pB_2_1 : partitionBound 2 1 = 532676608 := by
  rw [pB_eq 2 1 (by norm_num) (by norm_num) (by norm_num)]
  have hsE : ((sEnd : Nat) : ℚ) = 1065353216 := by norm_num [sEnd]
  have hQ : ((sEnd : Nat) : ℚ) * ((1 : Nat) : ℚ) / ((2 : Nat) : ℚ)
      = ((8323072 : Nat) : ℚ) * 2 ^ 6 := by
    rw [hsE]
    norm_num
  rw [hQ, roundQ_exact 8323072 6 (by norm_num) (by norm_num) (by norm_num)]
  rw [show ((8323072 : Nat) : ℚ) * 2 ^ 6 = ((532676608 : ℤ) : ℚ) by norm_num,
    Int.floor_intCast]
  rfl

/-- C1 fails as stated: the candidates a configuration enumerates depend on
the worker count, because partition boundaries are not aligned to the step
lattice.  With D = 1, K = 1, step 2^29 and the injective score
`scoreNeg`, the single-worker run enumerates patterns 0 and 536870912 and
returns candidate 536870912 (score -536870912); with 2 workers the
boundary is 532676608, worker 0 enumerates only 0, worker 1 only
532676608, and the merged result is candidate 532676608
(score -532676608).  Each run's enumerated candidates have pairwise
distinct scores, yet the Top-1 result sets differ. -/
theorem c1_counterexample :
    List.Pairwise (fun p q : Cand => p.2 ≠ q.2)
      (workerCands 1 536870912 1 2 scoreNeg 0) ∧
    List.Pairwise (fun p q : Cand => p.2 ≠ q.2)
      (workerCands 1 536870912 2 2 scoreNeg 0 ++ workerCands 1 536870912 2 2 scoreNeg 1) ∧
    optimizeRun 1 536870912 1 1 2 scoreNeg = [([536870912], -536870912)] ∧
    optimizeRun 1 536870912 1 2 2 scoreNeg = [([532676608], -532676608)] ∧
    optimizeRun 1 536870912 1 1 2 scoreNeg ≠ optimizeRun 1 536870912 1 2 2 scoreNeg := by
  have h10 : partitionBound 1 0 = 0 := pB_zero 1
  have h11 : partitionBound 1 1 = sEnd := pB_N_total 1 (by norm_num) (by norm_num)
  have h20 : partitionBound 2 0 = 0 := pB_zero 2
  have h21 : partitionBound 2 1 = 532676608 := pB_2_1
  have h22 : partitionBound 2 2 = sEnd := pB_N_total 2 (by norm_num) (by norm_num)
  have hI1 : iterateInput 1 536870912 0 sEnd 2 = [[0], [536870912]] := by decide
  have hI20 : iterateInput 1 536870912 0 532676608 2 = [[0]] := by decide
  have hI21 : iterateInput 1 536870912 532676608 sEnd 2 = [[532676608]] := by decide
  have hW10 : workerCands 1 536870912 1 2 scoreNeg 0
      = [([0], 0), ([536870912], -536870912)] := by
    unfold workerCands
    rw [h10, h11, hI1]
    simp only [List.map_cons, List.map_nil, scoreNeg, List.headD_cons]
    norm_num
  have hW20 : workerCands 1 536870912 2 2 scoreNeg 0 = [([0], 0)] := by
    unfold workerCands
    rw [h20, h21, hI20]
    simp only [List.map_cons, List.map_nil, scoreNeg, List.headD_cons]
    norm_num
  have hW21 : workerCands 1 536870912 2 2 scoreNeg 1
      = [([532676608], -532676608)] := by
    unfold workerCands
    rw [h21, h22, hI21]
    simp only [List.map_cons, List.map_nil, scoreNeg, List.headD_cons]
    norm_num
  have e0 : initState 1 = [padC] := rfl
  have hO1 : optimizeRun 1 536870912 1 1 2 scoreNeg = [([536870912], -536870912)] := by
    unfold optimizeRun
    rw [show List.range 1 = [0] from rfl]
    simp only [List.map_cons, List.map_nil, List.foldl, hW10]
    simp only [runT, foldPR, List.foldl, e0]
    norm_num [processResult, firstMaxAux, swapAt0, padC, fltMax]
  have hO2 : optimizeRun 1 536870912 1 2 2 scoreNeg = [([532676608], -532676608)] := by
    unfold optimizeRun
    rw [show List.range 2 = [0, 1] from rfl]
    simp only [List.map_cons, List.map_nil, List.foldl, hW20, hW21]
    simp only [runT, foldPR, List.foldl, e0]
    norm_num [processResult, firstMaxAux, swapAt0, padC, fltMax]
  refine ⟨?_, ?_, hO1, hO2, ?_⟩
  · rw [hW10]
    refine List.Pairwise.cons ?_
      (List.Pairwise.cons (fun c hc => absurd hc (List.not_mem_nil c)) List.Pairwise.nil)
    intro c hc
    rw [List.mem_singleton] at hc
    subst hc
    norm_num
  · rw [hW20, hW21]
    simp only [List.cons_append, List.nil_append]
    refine List.Pairwise.cons ?_
      (List.Pairwise.cons (fun c hc => absurd hc (List.not_mem_nil c)) List.Pairwise.nil)
    intro c hc
    rw [List.mem_singleton] at hc
    subst hc
    norm_num
  · rw [hO1, hO2]
    intro hcontra
    simp only [List.cons.injEq, Prod.mk.injEq] at hcontra
    exact absurd hcontra.1.1 (by decide)

theorem foldPR_join (L : List (List Cand)) :
    ∀ st : List Cand, L.foldl (fun acc held => foldPR acc held) st = foldPR st L.flatten := by
  induction L with
  | nil =>
    intro st
    simp only [List.foldl_nil, List.flatten_nil]
    rfl
  | cons l ls ih =>
    intro st
    simp only [List.foldl_cons, List.flatten_cons]
    rw [ih (foldPR st l)]
    unfold foldPR
    rw [List.foldl_append]

theorem optimizeRun_eq_runT (D step K N fuel : Nat) (score : List Nat → ℚ) :
    optimizeRun D step K N fuel score
      = runT K (((List.range N).map
          (fun i => runT K (workerCands D step N fuel score i))).flatten) := by
  unfold optimizeRun runT
  rw [foldPR_join]

theorem scoresOf_join (L : List (List Cand)) :
    scoresOf L.flatten = (L.map scoresOf).sum := by
  induction L with
  | nil => rfl
  | cons l ls ih =>
    simp only [List.flatten_cons, List.map_cons, List.sum_cons, scoresOf_append, ih]

theorem scoresOf_le_join (L : List (List Cand)) (l : List Cand) (hl : l ∈ L) :
    scoresOf l ≤ scoresOf L.flatten := by
  induction L with
  | nil => exact absurd hl (List.not_mem_nil l)
  | cons w ws ih =>
    simp only [List.flatten_cons, scoresOf_append]
    rcases List.mem_cons.mp hl with he | hm
    · rw [he]
      exact Multiset.le_add_right _ _
    · exact le_trans (ih hm) (Multiset.le_add_left _ _)

theorem bottom_chain (K : Nat) (hK : 1 ≤ K) :
    ∀ (Ws : List (List Cand)) (M H : Multiset ℚ),
      IsBottomK K H M →
      (∀ w ∈ Ws, scoresOf (runT K w) ≤ M) →
      ∃ Dtot : Multiset ℚ,
        IsBottomK K H (M + Dtot) ∧
        Multiset.replicate (K * Ws.length) fltMax + scoresOf Ws.flatten
          = scoresOf ((Ws.map (fun w => runT K w)).flatten) + Dtot := by
  intro Ws
  induction Ws with
  | nil =>
    intro M H hbot _
    refine ⟨0, by rwa [add_zero], ?_⟩
    simp only [List.length_nil, Nat.mul_zero, Multiset.replicate_zero, List.flatten_nil,
      List.map_nil]
    rfl
  | cons w ws ih =>
    intro M H hbot hws
    obtain ⟨Dp, heq, hdom⟩ := runT_dropped K hK w
    have hb1 : IsBottomK K H (M + Dp) := by
      refine bottom_extend K H M (scoresOf (runT K w)) Dp hbot
        (hws w (List.mem_cons_self w ws)) ?_ ?_
      · rw [scoresOf_card, runT_length]
      · intro b hb e he
        exact hdom b hb e he
    obtain ⟨Dtot', hbot', heq'⟩ := ih (M + Dp) H hb1
      (fun w' hw' => le_trans (hws w' (List.mem_cons_of_mem w hw'))
        (Multiset.le_add_right _ _))
    refine ⟨Dp + Dtot', ?_, ?_⟩
    · rwa [← add_assoc]
    · have hlen : K * (w :: ws).length = K + K * ws.length := by
        simp only [List.length_cons]
        ring
      rw [hlen, Multiset.replicate_add]
      simp only [List.flatten_cons, List.map_cons, scoresOf_append]
      ext x
      have h1 := congrArg (Multiset.count x) heq
      have h2 := congrArg (Multiset.count x) heq'
      simp only [Multiset.count_add] at h1 h2 ⊢
      omega

theorem merge_runs (K : Nat) (hK : 1 ≤ K) (Ws : List (List Cand))
    (hLD : lowDistinct K Ws.flatten) :
    (↑(runT K ((Ws.map (fun w => runT K w)).flatten)) : Multiset Cand)
      = ↑(runT K Ws.flatten) := by
  have hbotX := runT_bottom K hK ((Ws.map (fun w => runT K w)).flatten)
  have hws : ∀ w ∈ Ws, scoresOf (runT K w)
      ≤ Multiset.replicate K fltMax + scoresOf ((Ws.map (fun w => runT K w)).flatten) := by
    intro w hw
    refine le_trans ?_ (Multiset.le_add_left _ _)
    exact scoresOf_le_join _ _ (List.mem_map.mpr ⟨w, hw, rfl⟩)
  obtain ⟨Dtot, hbot', heq⟩ := bottom_chain K hK Ws _ _ hbotX hws
  apply runs_eq K hK Ws.flatten _ ?_ hLD ⟨K * Ws.length, ?_⟩
  · intro c hc
    obtain ⟨l, hl, hcl⟩ := List.mem_flatten.mp hc
    obtain ⟨w, hw, hwl⟩ := List.mem_map.mp hl
    subst hwl
    rcases runT_mem K w c hcl with h | ⟨hcm, _⟩
    · exact Or.inr h
    · exact Or.inl (List.mem_flatten.mpr ⟨w, hw, hcm⟩)
  · have hre : Multiset.replicate K fltMax
        + scoresOf ((Ws.map (fun w => runT K w)).flatten) + Dtot
        = Multiset.replicate (K + K * Ws.length) fltMax + scoresOf Ws.flatten := by
      ext x
      have h1 := congrArg (Multiset.count x) heq
      simp only [Multiset.count_add, Multiset.count_replicate] at h1 ⊢
      split_ifs at h1 ⊢ <;> omega
    rw [← hre]
    exact hbot'

theorem div_pow_succ (x j : Nat) : x / sEnd ^ (j + 1) = x / sEnd / sEnd ^ j := by
  rw [Nat.div_div_eq_div_mul, ← pow_succ']

theorem digs_zero (r : Nat) : digs 0 r = [] := rfl

theorem digs_succ (m r : Nat) : digs (m + 1) r = r % sEnd :: digs m (r / sEnd) := by
  unfold digs
  rw [List.range_succ_eq_map, List.map_cons, List.map_map]
  congr 1
  · simp
  · apply List.map_congr_left
    intro j hj
    simp only [Function.comp_apply]
    rw [show Nat.succ j = j + 1 from rfl, div_pow_succ]

theorem odoStep (m : Nat) : ∀ (r a b : Nat), b ≤ sEnd → a + r / sEnd ^ m < b →
    stepDims 1 (digs m r ++ [a + r / sEnd ^ m]) (List.replicate m sEnd ++ [b])
      = if a + (r + 1) / sEnd ^ m < b
        then some (digs m (r + 1) ++ [a + (r + 1) / sEnd ^ m])
        else none := by
  induction m with
  | zero =>
    intro r a b hb hab
    simp only [pow_zero, Nat.div_one] at hab ⊢
    rw [digs_zero, digs_zero]
    simp only [List.nil_append, List.replicate]
    simp only [stepDims, advanceFloat, decide_eq_true_eq]
    have hm : (a + r + 1) % u32 = a + r + 1 := by
      apply Nat.mod_eq_of_lt
      simp only [sEnd] at hb
      simp only [u32]
      omega
    rw [hm]
    by_cases hlt : a + r + 1 < b
    · rw [if_pos hlt, if_pos (by omega : a + (r + 1) < b), Nat.mod_eq_of_lt hlt]
      rw [Nat.add_assoc]
    · rw [if_neg hlt, if_neg (by omega : ¬a + (r + 1) < b)]
  | succ m ih =>
    intro r a b hb hab
    rw [digs_succ m r, digs_succ m (r + 1), List.cons_append, List.replicate_succ,
      List.cons_append]
    simp only [div_pow_succ] at hab ⊢
    simp only [stepDims, advanceFloat, decide_eq_true_eq]
    have hmu : (r % sEnd + 1) % u32 = r % sEnd + 1 := by
      apply Nat.mod_eq_of_lt
      have hr := Nat.mod_lt r (show 0 < sEnd by norm_num [sEnd])
      simp only [sEnd, u32] at hr ⊢
      omega
    rw [hmu]
    by_cases hd : r % sEnd + 1 < sEnd
    · rw [if_pos hd, Nat.mod_eq_of_lt hd]
      have f1 : (r + 1) % sEnd = r % sEnd + 1 := by
        simp only [sEnd] at hd ⊢
        omega
      have f2 : (r + 1) / sEnd = r / sEnd := by
        simp only [sEnd] at hd ⊢
        omega
      rw [f1, f2, if_pos hab]
      simp only [List.cons_append]
    · rw [if_neg hd]
      have g0 : r % sEnd + 1 = sEnd := by
        have hr := Nat.mod_lt r (show 0 < sEnd by norm_num [sEnd])
        simp only [sEnd] at hr hd ⊢
        omega
      have g1 : (r + 1) % sEnd = 0 := by
        simp only [sEnd] at g0 ⊢
        omega
      have g2 : (r + 1) / sEnd = r / sEnd + 1 := by
        simp only [sEnd] at g0 ⊢
        omega
      rw [ih (r / sEnd) a b hb hab, g1, g2]
      by_cases hc : a + (r / sEnd + 1) / sEnd ^ m < b
      · rw [if_pos hc, if_pos hc, g0, Nat.mod_self]
        rfl
      · rw [if_neg hc, if_neg hc]

theorem visitChar (m b a : Nat) (hb : b ≤ sEnd) :
    ∀ (fuel r : Nat), r < (b - a) * sEnd ^ m → (b - a) * sEnd ^ m - r ≤ fuel →
      visitD 1 (List.replicate m sEnd ++ [b]) fuel (digs m r ++ [a + r / sEnd ^ m])
        = (List.range ((b - a) * sEnd ^ m - r)).map
            (fun k => digs m (r + k) ++ [a + (r + k) / sEnd ^ m]) := by
  have hpos : 0 < sEnd ^ m := pow_pos (by norm_num [sEnd]) m
  have hcv : ∀ x : Nat, (a + x / sEnd ^ m < b) ↔ (x < (b - a) * sEnd ^ m) := by
    intro x
    rw [← Nat.div_lt_iff_lt_mul hpos, Nat.lt_sub_iff_add_lt,
      Nat.add_comm (x / sEnd ^ m) a]
  intro fuel
  induction fuel with
  | zero =>
    intro r h1 h2
    exfalso
    omega
  | succ fuel ih =>
    intro r h1 h2
    simp only [visitD]
    rw [odoStep m r a b hb ((hcv r).mpr h1)]
    by_cases hnext : r + 1 < (b - a) * sEnd ^ m
    · rw [if_pos ((hcv (r + 1)).mpr hnext)]
      dsimp only
      rw [ih (r + 1) hnext (by omega)]
      have hTr : (b - a) * sEnd ^ m - r = ((b - a) * sEnd ^ m - (r + 1)) + 1 := by
        omega
      rw [hTr, List.range_succ_eq_map, List.map_cons, List.map_map]
      congr 1
      apply List.map_congr_left
      intro k hk
      simp only [Function.comp_apply]
      rw [show r + Nat.succ k = r + 1 + k from by omega]
    · rw [if_neg (fun h => hnext ((hcv (r + 1)).mp h))]
      dsimp only
      have hTr : (b - a) * sEnd ^ m - r = 1 := by omega
      rw [hTr, (by decide : List.range 1 = [0]), List.map_cons, List.map_nil,
        Nat.add_zero]

theorem digs_rank_zero (m : Nat) : digs m 0 = List.replicate m 0 := by
  induction m with
  | zero => rfl
  | succ m ih =>
    rw [digs_succ, Nat.zero_mod, Nat.zero_div, ih]
    rfl

theorem iterateChar (D a b fuel : Nat) (hb : b ≤ sEnd) (hab : a < b)
    (hfuel : (b - a) * sEnd ^ (D - 1) ≤ fuel) :
    iterateInput D 1 a b fuel
      = (List.range ((b - a) * sEnd ^ (D - 1))).map (stateOfRank a D) := by
  unfold iterateInput iterStart iterBounds
  have h0 : (List.replicate (D - 1) 0 : List Nat) ++ [a]
      = digs (D - 1) 0 ++ [a + 0 / sEnd ^ (D - 1)] := by
    rw [digs_rank_zero, Nat.zero_div, Nat.add_zero]
  rw [h0]
  have hpos : 0 < sEnd ^ (D - 1) := pow_pos (by norm_num [sEnd]) (D - 1)
  have hT : 0 < (b - a) * sEnd ^ (D - 1) := by
    apply Nat.mul_pos
    · omega
    · exact hpos
  rw [visitChar (D - 1) b a hb fuel 0 hT (by omega)]
  apply List.map_congr_left
  intro k hk
  rw [Nat.zero_add]
  unfold stateOfRank digs
  rfl

theorem stateOfRank_shift (a D r : Nat) :
    stateOfRank a D r = stateOfRank 0 D (a * sEnd ^ (D - 1) + r) := by
  have hposj : ∀ j : Nat, 0 < sEnd ^ j := fun j => pow_pos (by norm_num [sEnd]) j
  unfold stateOfRank
  congr 1
  · apply List.map_congr_left
    intro j hj
    rw [List.mem_range] at hj
    have hsplit : a * sEnd ^ (D - 1) = a * sEnd ^ (D - 1 - j - 1) * sEnd * sEnd ^ j := by
      have hexp : sEnd ^ (D - 1) = sEnd ^ (D - 1 - j - 1 + 1 + j) := by
        congr 1
        omega
      rw [hexp, pow_add, pow_add, pow_one]
      ring
    rw [hsplit, Nat.add_comm (a * sEnd ^ (D - 1 - j - 1) * sEnd * sEnd ^ j) r,
      Nat.add_mul_div_right _ _ (hposj j), Nat.add_mul_mod_self_right]
  · rw [Nat.zero_add, Nat.add_comm (a * sEnd ^ (D - 1)) r,
      Nat.add_mul_div_right _ _ (hposj (D - 1)), Nat.add_comm (r / sEnd ^ (D - 1)) a]

theorem worker_stream (D N fuel : Nat) (score : List Nat → ℚ) (i : Nat)
    (hN1 : 1 ≤ N) (hN : N ≤ 65536) (hi : i < N)
    (hfuel : sEnd * sEnd ^ (D - 1) ≤ fuel) :
    workerCands D 1 N fuel score i
      = (List.range ((partitionBound N (i + 1) - partitionBound N i)
          * sEnd ^ (D - 1))).map
          (fun r => (stateOfRank 0 D (partitionBound N i * sEnd ^ (D - 1) + r),
            score (stateOfRank 0 D (partitionBound N i * sEnd ^ (D - 1) + r)))) := by
  have hb : partitionBound N (i + 1) ≤ sEnd := by
    have h1 := pB_mono N hN1 hN (i + 1) N (by omega) (le_refl N)
    rw [pB_N_total N hN1 hN] at h1
    exact h1
  have hab : partitionBound N i < partitionBound N (i + 1) := pB_strict N i hN1 hN hi
  unfold workerCands
  rw [iterateChar D (partitionBound N i) (partitionBound N (i + 1)) fuel hb hab
    (le_trans (Nat.mul_le_mul_right _ (by omega)) hfuel)]
  rw [List.map_map]
  apply List.map_congr_left
  intro r hr
  simp only [Function.comp_apply]
  rw [stateOfRank_shift (partitionBound N i) D r]

theorem workers_flatten (D N fuel : Nat) (score : List Nat → ℚ) (hN1 : 1 ≤ N)
    (hN : N ≤ 65536) (hfuel : sEnd * sEnd ^ (D - 1) ≤ fuel) :
    ((List.range N).map (fun i => workerCands D 1 N fuel score i)).flatten
      = (List.range (sEnd * sEnd ^ (D - 1))).map
          (fun r => (stateOfRank 0 D r, score (stateOfRank 0 D r))) := by
  suffices h : ∀ n, n ≤ N →
      ((List.range n).map (fun i => workerCands D 1 N fuel score i)).flatten
        = (List.range (partitionBound N n * sEnd ^ (D - 1))).map
            (fun r => (stateOfRank 0 D r, score (stateOfRank 0 D r))) by
    have hfin := h N (le_refl N)
    rwa [pB_N_total N hN1 hN] at hfin
  intro n
  induction n with
  | zero =>
    intro _
    rw [pB_zero]
    simp
  | succ n ih =>
    intro hn
    rw [List.range_succ, List.map_append, List.flatten_append, ih (by omega)]
    simp only [List.map_cons, List.map_nil, List.flatten_cons, List.flatten_nil,
      List.append_nil]
    rw [worker_stream D N fuel score n hN1 hN (by omega) hfuel]
    have hmono := pB_mono N hN1 hN n (n + 1) (by omega) (by omega)
    have hsum : partitionBound N n * sEnd ^ (D - 1)
        + (partitionBound N (n + 1) - partitionBound N n) * sEnd ^ (D - 1)
        = partitionBound N (n + 1) * sEnd ^ (D - 1) := by
      rw [← Nat.add_mul]
      congr 1
      omega
    rw [← hsum, List.range_add, List.map_append, List.map_map]
    congr 1

theorem full_stream (D fuel : Nat) (score : List Nat → ℚ)
    (hfuel : sEnd * sEnd ^ (D - 1) ≤ fuel) :
    workerCands D 1 1 fuel score 0
      = (List.range (sEnd * sEnd ^ (D - 1))).map
          (fun r => (stateOfRank 0 D r, score (stateOfRank 0 D r))) := by
  rw [worker_stream D 1 fuel score 0 (le_refl 1) (by norm_num) (by norm_num) hfuel]
  rw [pB_zero, pB_N_total 1 (le_refl 1) (by norm_num)]
  simp only [Nat.zero_mul, Nat.zero_add, Nat.sub_zero]

theorem pairwise_lowDistinct (K : Nat) (l : List Cand)
    (h : List.Pairwise (fun p q : Cand => p.2 ≠ q.2) l) : lowDistinct K l := by
  intro s _
  have hnd : (l.map (fun c : Cand => c.2)).Nodup :=
    List.Pairwise.map _ (fun a b hab => hab) h
  have hnd' : (scoresOf l).Nodup := by
    rw [scoresOf]
    exact Multiset.coe_nodup.mpr hnd
  exact Multiset.nodup_iff_count_le_one.mp hnd' s

/-- C1 amended: with step size 1 (the dense scan, where every partition
boundary lies on the step lattice) the claim holds: for every dimension
count D, every K ≥ 1 and every worker count N with 1 ≤ N ≤ 2^16, if all
candidates enumerated over the domain have pairwise distinct scores, the
merged result of the N-worker run and the single-worker run hold identical
Top-K result sets (as multisets of (input, score) pairs; the final sort
only orders them).  For step sizes that do not divide every partition
boundary the claim fails, because the workers enumerate different lattice
points than the single worker does (see the counterexample). -/
theorem c1_amended (D K N : Nat) (score : List Nat → ℚ) (hK : 1 ≤ K)
    (hN1 : 1 ≤ N) (hN : N ≤ 65536)
    (hdist : List.Pairwise (fun p q : Cand => p.2 ≠ q.2)
      (workerCands D 1 1 (sEnd * sEnd ^ (D - 1)) score 0)) :
    (↑(optimizeRun D 1 K N (sEnd * sEnd ^ (D - 1)) score) : Multiset Cand)
      = ↑(optimizeRun D 1 K 1 (sEnd * sEnd ^ (D - 1)) score) := by
  have hLD : lowDistinct K (workerCands D 1 1 (sEnd * sEnd ^ (D - 1)) score 0) :=
    pairwise_lowDistinct K _ hdist
  have hfuel : sEnd * sEnd ^ (D - 1) ≤ sEnd * sEnd ^ (D - 1) := le_refl _
  have hUN : ((List.range N).map
      (fun i => workerCands D 1 N (sEnd * sEnd ^ (D - 1)) score i)).flatten
      = workerCands D 1 1 (sEnd * sEnd ^ (D - 1)) score 0 := by
    rw [workers_flatten D N (sEnd * sEnd ^ (D - 1)) score hN1 hN hfuel,
      full_stream D (sEnd * sEnd ^ (D - 1)) score hfuel]
  have hU1 : ((List.range 1).map
      (fun i => workerCands D 1 1 (sEnd * sEnd ^ (D - 1)) score i)).flatten
      = workerCands D 1 1 (sEnd * sEnd ^ (D - 1)) score 0 := by
    rw [workers_flatten D 1 (sEnd * sEnd ^ (D - 1)) score (le_refl 1) (by norm_num)
      hfuel, full_stream D (sEnd * sEnd ^ (D - 1)) score hfuel]
  have hmm : ∀ M : Nat,
      ((List.range M).map (fun i => runT K (workerCands D 1 M (sEnd * sEnd ^ (D - 1)) score i)))
      = (((List.range M).map (fun i => workerCands D 1 M (sEnd * sEnd ^ (D - 1)) score i)).map
          (fun w => runT K w)) := by
    intro M
    rw [List.map_map]
    rfl
  have e1 := merge_runs K hK
    ((List.range N).map (fun i => workerCands D 1 N (sEnd * sEnd ^ (D - 1)) score i))
    (by rw [hUN]; exact hLD)
  have e2 := merge_runs K hK
    ((List.range 1).map (fun i => workerCands D 1 1 (sEnd * sEnd ^ (D - 1)) score i))
    (by rw [hU1]; exact hLD)
  rw [optimizeRun_eq_runT, optimizeRun_eq_runT, hmm N, hmm 1, e1, e2, hUN, hU1]

theorem scoreNeg_stream_distinct :
    List.Pairwise (fun p q : Cand => p.2 ≠ q.2)
      (workerCands 1 1 1 (sEnd * sEnd ^ (1 - 1)) scoreNeg 0) := by
  rw [full_stream 1 (sEnd * sEnd ^ (1 - 1)) scoreNeg (le_refl _)]
  rw [List.pairwise_map]
  have hst : ∀ r : Nat, stateOfRank 0 1 r = [r] := by
    intro r
    unfold stateOfRank
    simp
  refine List.Pairwise.imp ?_ (List.pairwise_lt_range _)
  intro a b hab
  rw [hst a, hst b]
  simp only [scoreNeg, List.headD_cons]
  intro he
  have hq : (a : ℚ) = (b : ℚ) := by
    have := neg_injective he
    exact_mod_cast this
  have hn : a = b := by exact_mod_cast hq
  omega

theorem c1_amended_witness :
    (1 ≤ 1 ∧ 1 ≤ 2 ∧ 2 ≤ 65536 ∧
      List.Pairwise (fun p q : Cand => p.2 ≠ q.2)
        (workerCands 1 1 1 (sEnd * sEnd ^ (1 - 1)) scoreNeg 0)) ∧
    (↑(optimizeRun 1 1 1 2 (sEnd * sEnd ^ (1 - 1)) scoreNeg) : Multiset Cand)
      = ↑(optimizeRun 1 1 1 1 (sEnd * sEnd ^ (1 - 1)) scoreNeg) :=
  ⟨⟨le_refl 1, by norm_num, by norm_num, scoreNeg_stream_distinct⟩,
    c1_amended 1 1 2 scoreNeg (le_refl 1) (by norm_num) (by norm_num)
      scoreNeg_stream_distinct⟩
